import Mathlib

/-!
Verification development for the build-time asset pipeline
(`scripts/build-assets.js`): Google-Drive URL identifier extraction,
content-type sniffing, the download engine with redirect and virus-scan
interstitial handling, the cache reconciler and the pipeline orchestrator.

Shallow embedding conventions:
* JavaScript strings are `List Char`; byte buffers are `List Nat`
  (each element `< 256`).
* `Buffer.toString("ascii", ...)` masks each byte to 7 bits; we model it
  with `Char.ofNat (b % 128)`.  `toString("utf8")` agrees with this on
  ASCII bytes, which is the range exercised here.
* Network and filesystem effects are made explicit: the download engine
  is interpreted against a `Server` oracle (URL ↦ response) with a fuel
  parameter for its self-recursion, and the orchestrator runs against a
  directory modelled as a list of (name, size) entries in readdir order
  plus a per-identifier fetch oracle.
-/

namespace AssetPipeline

/-- Characters matched by the capture class `[a-zA-Z0-9_-]` of the
Google Drive URL patterns. -/
def idChar (c : Char) : Bool :=
  c.isAlpha || c.isDigit || c == '_' || c == '-'

/-- Literal part of pattern 1, `https:\/\/drive\.google\.com\/file\/d\/`. -/
def fileDLit : List Char := "https://drive.google.com/file/d/".data

/-- Literal trailing requirement of pattern 1. -/
def viewLit : List Char := "/view".data

/-- Literal part of pattern 2, `https:\/\/drive\.google\.com\/open\?id=`. -/
def openIdLit : List Char := "https://drive.google.com/open?id=".data

/-- Literal part of pattern 3, `https:\/\/docs\.google\.com\/`. -/
def docsLit : List Char := "https://docs.google.com/".data

/-- Scanner for pattern 1,
`/https:\/\/drive\.google\.com\/file\/d\/([a-zA-Z0-9_-]+)\/view/`:
at each position, match the literal, then the greedy capture run, then
require `/view`; on failure the engine advances one position (which,
because the literal cannot overlap itself, is the same as searching the
tail). -/
def scanFileD : List Char → Option (List Char)
  | [] => none
  | c :: rest =>
    if fileDLit.isPrefixOf (c :: rest) then
      let after := (c :: rest).drop fileDLit.length
      let run := after.takeWhile idChar
      if run ≠ [] ∧ viewLit.isPrefixOf (after.drop run.length) then some run
      else scanFileD rest
    else scanFileD rest

/-- Scanner for pattern 2,
`/https:\/\/drive\.google\.com\/open\?id=([a-zA-Z0-9_-]+)/`. -/
def scanOpenId : List Char → Option (List Char)
  | [] => none
  | c :: rest =>
    if openIdLit.isPrefixOf (c :: rest) then
      let run := ((c :: rest).drop openIdLit.length).takeWhile idChar
      if run ≠ [] then some run else scanOpenId rest
    else scanOpenId rest

/-- Rightmost match of `\/d\/([a-zA-Z0-9_-]+)` inside the region a greedy
`.*` can span: the regex backtracks from the longest extent, so the last
occurrence of `/d/` followed by at least one identifier character wins. -/
def lastDSlash : List Char → Option (List Char)
  | [] => none
  | c :: rest =>
    match lastDSlash rest with
    | some r => some r
    | none =>
      if "/d/".data.isPrefixOf (c :: rest) then
        let run := ((c :: rest).drop 3).takeWhile idChar
        if run ≠ [] then some run else none
      else none

/-- Scanner for pattern 3,
`/https:\/\/docs\.google\.com\/.*\/d\/([a-zA-Z0-9_-]+)/`: after the
literal, `.*` cannot cross a newline, so the match lives in the
newline-free region after the literal; greediness selects the last
eligible `/d/`. -/
def scanDocs : List Char → Option (List Char)
  | [] => none
  | c :: rest =>
    if docsLit.isPrefixOf (c :: rest) then
      match lastDSlash (((c :: rest).drop docsLit.length).takeWhile (fun d => d ≠ '\n')) with
      | some r => some r
      | none => scanDocs rest
    else scanDocs rest

/-- A JavaScript value as seen by `extractDriveFileId`: a string, or any
non-string value (`null`, `undefined`, numbers, objects, ...). -/
inductive JSVal where
  | jstr (s : List Char)
  | jother
deriving DecidableEq

/-- `extractDriveFileId(url)` (build-assets.js lines 55-63): `null` for
non-strings and for the empty string (which is falsy), otherwise the
first capturing-group match of the three `GOOGLE_DRIVE_PATTERNS` in
order, else `null`. -/
def extractDriveFileId : JSVal → Option (List Char)
  | .jother => none
  | .jstr s =>
    if s = [] then none
    else
      match scanFileD s with
      | some r => some r
      | none =>
        match scanOpenId s with
        | some r => some r
        | none => scanDocs s

/-- String-level wrapper for call sites where the value is known to be a
string. -/
def extractDriveFileIdStr (s : List Char) : Option (List Char) :=
  extractDriveFileId (.jstr s)

/-- Is the character one of the lowercase alphanumerics kept by the slug
regex class `[a-z0-9]`? -/
def lowerAlnum (c : Char) : Bool :=
  c.isLower || c.isDigit

/-- First step of `.replace(/[^a-z0-9]+/g, "-")`: map every character
outside `[a-z0-9]` to a dash.  Together with `squeezeDashes` (which
merges adjacent dashes) this computes the regex replacement: a maximal
run of non-alphanumerics becomes a single dash, because alphanumerics
are left in place and every run of dashes after the map comes from one
maximal run of non-alphanumerics. -/
def dashify (l : List Char) : List Char :=
  l.map (fun c => if lowerAlnum c then c else '-')

/-- Merge adjacent dashes (see `dashify`). -/
def squeezeDashes : List Char → List Char
  | [] => []
  | [c] => [c]
  | c :: d :: rest =>
    if c = '-' ∧ d = '-' then squeezeDashes (d :: rest)
    else c :: squeezeDashes (d :: rest)

/-- `.replace(/^-+|-+$/g, "")`: strip leading and trailing dashes. -/
def trimDashes (l : List Char) : List Char :=
  ((l.dropWhile (fun c => c = '-')).reverse.dropWhile (fun c => c = '-')).reverse

/-- The slug computation inside `createSafeFilename`:
`projectName.toLowerCase().replace(/[^a-z0-9]+/g, "-").replace(/^-+|-+$/g, "")`. -/
def safeName (projectName : List Char) : List Char :=
  trimDashes (squeezeDashes (dashify (projectName.map Char.toLower)))

/-- String interpolation of a possibly-null value: JavaScript renders
`null` as the four characters `null`. -/
def interpId : Option (List Char) → List Char
  | some r => r
  | none => "null".data

/-- `createSafeFilename(projectName, fieldName, originalUrl, tempExtension)`
(build-assets.js lines 166-179): deterministic cache file name
`${safeName}-${fieldName}-${fileId}${tempExtension}`. -/
def createSafeFilename (projectName fieldName originalUrl tempExtension : List Char) :
    List Char :=
  safeName projectName ++ ('-' :: fieldName) ++ ('-' :: interpId (extractDriveFileIdStr originalUrl))
    ++ tempExtension

/-- JavaScript `String.prototype.includes` / `Buffer.includes`: is `pat`
a contiguous substring? -/
def seqInfix (pat : List Char) : List Char → Bool
  | [] => pat.isEmpty
  | c :: rest => pat.isPrefixOf (c :: rest) || seqInfix pat rest

/-- `getDirectDownloadUrl(url)` (build-assets.js lines 66-70). -/
def getDirectDownloadUrl (url : List Char) : Option (List Char) :=
  (extractDriveFileIdStr url).map
    (fun id => "https://drive.google.com/uc?export=download&id=".data ++ id)

/-- Decode bytes with Node's `"ascii"` encoding, which masks each byte to
7 bits. -/
def asciiChars (l : List Nat) : List Char :=
  l.map (fun b => Char.ofNat (b % 128))

/-- Decode bytes as text the way the script's `toString()`/`toString("utf8")`
calls do.  On ASCII bytes (the only range the checked markers use) utf-8
decoding is the identity on code points, which is what this models. -/
def utf8Chars (l : List Nat) : List Char :=
  l.map (fun b => Char.ofNat b)

/-- Lower-case hex digit of `n % 16`. -/
def hexDigit (n : Nat) : Char :=
  if n < 10 then Char.ofNat (48 + n) else Char.ofNat (87 + n % 16)

/-- Node's `toString("hex")`: two lowercase hex digits per byte. -/
def hexChars (l : List Nat) : List Char :=
  l.flatMap (fun b => [hexDigit (b / 16 % 16), hexDigit (b % 16)])

/-- `Buffer.slice(a, b)` (clamping, no wrap for the non-negative indices
used in the script). -/
def bufSlice (l : List Nat) (a b : Nat) : List Nat :=
  (l.drop a).take (b - a)

/-- Byte sequence of the ASCII string `ftyp`. -/
def ftypSeq : List Nat := "ftyp".data.map Char.toNat

/-- `Buffer.indexOf(pat)`: index of the first occurrence of the byte
pattern, `none` for `-1`. -/
def findSeqIdx (pat : List Nat) : List Nat → Option Nat
  | [] => if pat = [] then some 0 else none
  | b :: rest =>
    if pat.isPrefixOf (b :: rest) then some 0
    else (findSeqIdx pat rest).map (· + 1)

/-- Continuation of `detectFileType` after the ISO-media `ftyp` branch did
not fire (build-assets.js lines 99-163). -/
def detectFileTypeRest (buffer : List Nat) : Except (List Char) (List Char) :=
  if utf8Chars (bufSlice buffer 0 3) = "AVI".data then .ok ".avi".data
  else if utf8Chars (bufSlice buffer 0 4) = "RIFF".data ∧
      utf8Chars (bufSlice buffer 8 12) = "AVI ".data then .ok ".avi".data
  else if hexChars (bufSlice buffer 0 4) = "1a45dfa3".data then .ok ".webm".data
  else if hexChars (bufSlice buffer 0 2) = "ffd8".data then .ok ".jpg".data
  else if hexChars (bufSlice buffer 0 8) = "89504e470d0a1a0a".data then .ok ".png".data
  else if utf8Chars (bufSlice buffer 0 6) = "GIF87a".data ∨
      utf8Chars (bufSlice buffer 0 6) = "GIF89a".data then .ok ".gif".data
  else if utf8Chars (bufSlice buffer 0 4) = "RIFF".data ∧
      utf8Chars (bufSlice buffer 8 12) = "WEBP".data then .ok ".webp".data
  else if buffer.length > 1024 * 1024 then .ok ".mp4".data
  else if buffer.length > 10000 ∧
      (let bufferStr := hexChars (bufSlice buffer 0 (min 100 buffer.length))
       seqInfix "66747970".data bufferStr ∨ seqInfix "6d6f6f76".data bufferStr ∨
         seqInfix "6d646174".data bufferStr) then .ok ".mp4".data
  else if buffer.length < 5000 ∧
      (let textContent := asciiChars (bufSlice buffer 0 (min 100 buffer.length))
       seqInfix "<html>".data textContent ∨ seqInfix "<!DOCTYPE".data textContent) then
    .error "Downloaded file appears to be an HTML error page, not media content".data
  else .ok ".jpg".data

/-- `detectFileType(buffer)` (build-assets.js lines 74-164).  `Except.error`
models the `throw` on small HTML buffers; every other outcome returns an
extension. -/
def detectFileType (buffer : List Nat) : Except (List Char) (List Char) :=
  match findSeqIdx ftypSeq buffer with
  | some ftypIndex =>
    if ftypIndex ≤ 12 then
      let brand := utf8Chars (bufSlice buffer (ftypIndex + 4) (ftypIndex + 8))
      if seqInfix "mp4".data brand ∨ seqInfix "isom".data brand ∨
          seqInfix "M4V".data brand ∨ seqInfix "mp41".data brand ∨
          seqInfix "mp42".data brand then .ok ".mp4".data
      else if seqInfix "qt".data brand ∨ seqInfix "mov".data brand then .ok ".mov".data
      else .ok ".mp4".data
    else detectFileTypeRest buffer
  | none => detectFileTypeRest buffer

/-! ## The download engine (`downloadFile`, build-assets.js lines 182-398) -/

/-- `MAX_FILE_SIZE` (line 43). -/
def maxFileSize : Nat := 100 * 1024 * 1024

/-- An HTTP answer as `https.get` surfaces it to the script: a 3xx with a
`Location` header, a 200 with a streamed body and optional
`Content-Disposition`, another status code, or a transport-level error
(connection failure or the 60s timeout — wall-clock time itself is not
modelled, only the resulting retryable failure). -/
inductive HttpResponse where
  | redirect (location : List Char)
  | ok (body : List Nat) (contentDisposition : Option (List Char))
  | status (code : Nat)
  | netError
deriving DecidableEq

/-- The network, as a deterministic map from request URL to response. -/
def Server : Type := List Char → HttpResponse

/-- Failure reasons of one download call. -/
inductive DlErr where
  | httpStatus (code : Nat)
  | tooLarge
  | htmlPage
  | network
deriving DecidableEq

/-- Result of a `downloadFile` call tree.  `undef` is the JavaScript
`undefined` returned when the for-loop runs zero attempts; `outOfFuel`
is the model's budget for the self-recursion (the source has no such
bound); `crash` models the uncaught `detectFileType` throw inside the
`finish` callback. -/
inductive DlRes where
  | success (finalPath : List Char)
  | failure (e : DlErr)
  | undef
  | outOfFuel
  | crash (msg : List Char)
deriving DecidableEq

/-- Observable download state: the file at the target path (name and
bytes), `none` when no file exists, plus the list of requested URLs in
order. -/
structure DlState where
  disk : Option (List Char × List Nat)
  log : List (List Char)
deriving DecidableEq

/-- `path.basename`-style tail after the last slash. -/
def afterLastSlash (l : List Char) : List Char :=
  (l.reverse.takeWhile (fun c => c ≠ '/')).reverse

/-- `path.extname` on a basename: from the last dot to the end, except
when there is no dot or the only dot starts the basename. -/
def extnameAux (base : List Char) : List Char :=
  let rev := base.reverse
  let pre := rev.takeWhile (fun c => c ≠ '.')
  if pre.length = rev.length then []
  else if pre.length + 1 = rev.length then []
  else '.' :: pre.reverse

/-- `path.extname(p)`. -/
def extname (p : List Char) : List Char :=
  extnameAux (afterLastSlash p)

/-- Replace the first occurrence of `pat` (non-empty) in the list. -/
def replaceFirstAux (pat repl : List Char) : List Char → List Char
  | [] => []
  | c :: rest =>
    if pat.isPrefixOf (c :: rest) then repl ++ (c :: rest).drop pat.length
    else c :: replaceFirstAux pat repl rest

/-- JavaScript `String.prototype.replace` with a plain-string pattern:
first occurrence only; the empty pattern matches at the start. -/
def replaceFirstSeq (l pat repl : List Char) : List Char :=
  if pat = [] then repl ++ l else replaceFirstAux pat repl l

/-- Is the character a single or double quote (the class `['"]`)? -/
def quoteChar (c : Char) : Bool :=
  c == '"' || c == Char.ofNat 39

/-- `.replace(/['"]/g, "")`. -/
def stripQuotes (l : List Char) : List Char :=
  l.filter (fun c => !(quoteChar c))

/-- ASCII members of the regex class `\s`. -/
def jsSpace (c : Char) : Bool :=
  c == ' ' || c == '\t' || c == '\n' || c == '\r' || c == Char.ofNat 11 || c == Char.ofNat 12

/-- Lazy `.*?` up to the closing quote `q`: content before the first `q`,
failing if a newline (which `.` cannot match) comes first. -/
def lazyQuoted (q : Char) : List Char → Option (List Char)
  | [] => none
  | c :: rest =>
    if c = q then some []
    else if c = '\n' then none
    else (lazyQuoted q rest).map (c :: ·)

/-- Alternative 2 of the filename regex group: `[^;\n]*`. -/
def cdTail (rest2 : List Char) : List Char :=
  rest2.takeWhile (fun d => d ≠ ';' ∧ d ≠ '\n')

/-- Scanner for `/filename[^;=\n]*=((['"]).*?\2|[^;\n]*)/` (line 230):
returns capture group 1 (quotes included for the quoted alternative). -/
def cdScan : List Char → Option (List Char)
  | [] => none
  | c :: rest =>
    if "filename".data.isPrefixOf (c :: rest) then
      let after := (c :: rest).drop "filename".data.length
      let junk := after.takeWhile (fun d => d ≠ ';' ∧ d ≠ '=' ∧ d ≠ '\n')
      match after.drop junk.length with
      | '=' :: rest2 =>
        match rest2 with
        | [] => some []
        | q :: rest3 =>
          if quoteChar q then
            match lazyQuoted q rest3 with
            | some content => some (q :: (content ++ [q]))
            | none => some (cdTail rest2)
          else some (cdTail rest2)
      | _ => cdScan rest
    else cdScan rest

/-- Lines 227-237: the filename taken from `Content-Disposition`, with
quotes stripped; `none` when the header is absent, the regex does not
match, or group 1 is empty (falsy). -/
def parseContentDisposition : Option (List Char) → Option (List Char)
  | none => none
  | some cd =>
    match cdScan cd with
    | none => none
    | some m => if m = [] then none else some (stripQuotes m)

/-- First `min(1000, length)` bytes decoded as text (line 276). -/
def first1000Utf8 (body : List Nat) : List Char :=
  utf8Chars (body.take 1000)

/-- Line 281-285: does the written file look like an HTML document? -/
def looksHtml (body : List Nat) : Bool :=
  let fileContent := first1000Utf8 body
  seqInfix "<html".data fileContent || seqInfix "<!DOCTYPE".data fileContent ||
    seqInfix "<title>".data fileContent

/-- Lines 291-294: Google Drive virus-scan warning markers. -/
def virusWarning (body : List Nat) : Bool :=
  let fileContent := first1000Utf8 body
  seqInfix "virus scan warning".data fileContent ||
    seqInfix ("Google Drive can".data ++ Char.ofNat 39 :: "t scan this file".data) fileContent

/-- Scanner for the hidden-form-field regexes
`/name="confirm"\s+value="([^"]+)"/` and `/name="uuid"\s+value="([^"]+)"/`
(lines 298-303), parameterised by the field name. -/
def hiddenField (field : List Char) : List Char → Option (List Char)
  | [] => none
  | c :: rest =>
    if ("name=\"".data ++ field ++ ['"']).isPrefixOf (c :: rest) then
      let after := (c :: rest).drop ("name=\"".data ++ field ++ ['"']).length
      let sp := after.takeWhile jsSpace
      let after2 := after.drop sp.length
      let run := (after2.drop "value=\"".data.length).takeWhile (fun d => d ≠ '"')
      if sp ≠ [] ∧ "value=\"".data.isPrefixOf after2 ∧ run ≠ [] ∧
          (after2.drop "value=\"".data.length).drop run.length ≠ [] then some run
      else hiddenField field rest
    else hiddenField field rest

/-- Line 308: the reconstructed confirmed-download URL. -/
def directDownloadUrl (fileId : Option (List Char)) (confirm uuid : List Char) : List Char :=
  "https://drive.usercontent.google.com/download?id=".data ++ interpId fileId ++
    "&export=download&confirm=".data ++ confirm ++ "&uuid=".data ++ uuid

/-- One attempt of `downloadFile` (the promise body, lines 194-388),
parameterised by `recur`, the self-invocation used on a redirect
(line 210) and on the virus-scan interstitial (line 314).  `recur` takes
the new URL, the new retry budget and the state. -/
def dlAttemptF (server : Server)
    (recur : List Char → Nat → Option (List Char) → DlState → DlRes × DlState)
    (url : List Char) (retries : Nat) (fileId : Option (List Char)) (fp : List Char)
    (st0 : DlState) : DlRes × DlState :=
  let st : DlState := { disk := some (fp, []), log := st0.log ++ [url] }
  match server url with
  | .redirect loc => recur loc retries fileId st
  | .status code => (.failure (.httpStatus code), st)
  | .netError => (.failure .network, st)
  | .ok body cd =>
    if body.length > maxFileSize then
      (.failure .tooLarge, { st with disk := none })
    else
      let st1 : DlState := { st with disk := some (fp, body) }
      if looksHtml body then
        if virusWarning body then
          match hiddenField "confirm".data (first1000Utf8 body),
              hiddenField "uuid".data (first1000Utf8 body) with
          | some confirmValue, some uuidValue =>
            recur (directDownloadUrl fileId confirmValue uuidValue) 1 fileId
              { st1 with disk := none }
          | _, _ => (.failure .htmlPage, { st1 with disk := none })
        else (.failure .htmlPage, { st1 with disk := none })
      else
        match parseContentDisposition cd with
        | some (c0 :: cs) =>
          let originalExt := extname (c0 :: cs)
          if originalExt ≠ [] then
            let newFp := replaceFirstSeq fp (extname fp) originalExt
            if newFp ≠ fp then (.success newFp, { st1 with disk := some (newFp, body) })
            else (.success fp, st1)
          else (.success fp, st1)
        | _ =>
          match detectFileType body with
          | .error msg => (.crash msg, st1)
          | .ok detectedExt =>
            let currentExt := extname fp
            if currentExt ≠ detectedExt then
              let newFp := replaceFirstSeq fp currentExt detectedExt
              (.success newFp, { st1 with disk := some (newFp, body) })
            else (.success fp, st1)

/-- The retry for-loop of `downloadFile` (lines 188-397), structural on
the remaining attempts: a failed attempt is retried until the budget is
exhausted (`attempt === retries` rethrows); every other outcome returns
immediately. -/
def dlLoopF (server : Server)
    (recur : List Char → Nat → Option (List Char) → DlState → DlRes × DlState)
    (url : List Char) (retries : Nat) (fileId : Option (List Char)) (fp : List Char) :
    Nat → DlState → DlRes × DlState
  | 0, st => (.undef, st)
  | a + 1, st =>
    match dlAttemptF server recur url retries fileId fp st with
    | (.failure e, st2) =>
      if a = 0 then (.failure e, st2)
      else dlLoopF server recur url retries fileId fp a st2
    | r => r

/-- `downloadFile(url, filepath, retries, fileId)` interpreted with a
recursion budget: each unit of fuel allows one self-invocation (redirect
hop or interstitial retry).  The source has no such bound; `outOfFuel`
reports that the call tree exceeded the given depth. -/
def dlRun (server : Server) :
    Nat → List Char → Nat → Option (List Char) → List Char → DlState → DlRes × DlState
  | 0 => fun _ _ _ _ st => (.outOfFuel, st)
  | fuel + 1 => fun url retries fileId fp st =>
    dlLoopF server (fun u r i s => dlRun server fuel u r i fp s) url retries fileId fp retries st

/-- Entry point matching the script's call shape: extract the file id
from the URL when the caller did not supply one (lines 183-186). -/
def downloadFile (server : Server) (fuel : Nat) (url : List Char) (fp : List Char)
    (retries : Nat) (fileId : Option (List Char)) (st : DlState) : DlRes × DlState :=
  let fid := match fileId with
    | some i => some i
    | none => extractDriveFileIdStr url
  dlRun server fuel url retries fid fp st

/-! ## The orchestrator (`processAssets`, lines 596-736) and the cache
reconciler (`syncFilenames`, lines 548-593)

The orchestrator is interpreted against an explicit directory state (the
entries of `ASSETS_DIR` in readdir order, each with its `stat` size) and
a fetch oracle abstracting one `downloadFile` call tree per Google Drive
identifier (the request URL is a function of the identifier only).  A
successful fetch reports the final extension the engine renamed the
temporary file to and the byte size written; a failed fetch reports
whether it left the (empty) temporary file behind — the non-200 and
transport failure paths do, while the HTML and size-exceeded paths
unlink it. -/

/-- One filesystem entry of the assets directory. -/
structure Entry where
  name : List Char
  size : Nat
deriving DecidableEq

/-- Outcome of one `downloadFile` call tree for a given identifier. -/
inductive FetchOutcome where
  | fsucc (ext : List Char) (size : Nat)
  | ffail (leftover : Bool)
deriving DecidableEq

/-- The fetch oracle: deterministic per identifier within a run. -/
def Oracle : Type := List Char → FetchOutcome

/-- Orchestrator state: directory contents plus the run counters
(`downloadCount`, `skipCount`, `errorCount` of lines 607-609) and two
instrumentation logs: the identifiers passed to `downloadFile` in order,
and the base names whose download succeeded. -/
structure RunState where
  dir : List Entry
  downloadCount : Nat
  skipCount : Nat
  errorCount : Nat
  fetchLog : List (List Char)
  successLog : List (List Char)
deriving DecidableEq

/-- Look up a directory entry by exact name (`fs.existsSync` +
`fs.statSync`). -/
def lookupEntry (dir : List Entry) (n : List Char) : Option Entry :=
  dir.find? (fun e => e.name == n)

/-- Create or truncate a file: overwrite the size in place when the name
exists, append a new entry otherwise. -/
def setEntry (dir : List Entry) (n : List Char) (sz : Nat) : List Entry :=
  if dir.any (fun e => e.name == n) then
    dir.map (fun e => if e.name == n then { e with size := sz } else e)
  else dir ++ [⟨n, sz⟩]

/-- `fs.unlink`: drop the entry with the given name. -/
def removeEntry (dir : List Entry) (n : List Char) : List Entry :=
  dir.filter (fun e => !(e.name == n))

/-- The temporary placeholder extension. -/
def tmpLit : List Char := ".tmp".data

/-- The local path prefix written into records (lines 506, 659, 674,
685). -/
def assetsPrefix : List Char := "/assets/projects/".data

/-- `filename.replace(/\.[^.]*$/, "")` (line 644): drop the last
dot-started segment when a dot exists. -/
def stripLastDotSegment (l : List Char) : List Char :=
  let rev := l.reverse
  let pre := rev.takeWhile (fun c => c ≠ '.')
  if pre.length = rev.length then l else (rev.drop (pre.length + 1)).reverse

/-- The fixed list of media-bearing field names (lines 558-565 and
621-628). -/
def mediaFields : List (List Char) :=
  ["thumbnailImage".data, "workImage1".data, "workImage2".data,
   "workImage3".data, "workImage4".data, "workImage5".data]

/-- A record, restricted to its name and its media-bearing fields in
iteration order (the canonical records carry `mediaFields` as keys). -/
structure Project where
  projectName : List Char
  media : List (List Char × List Char)
deriving DecidableEq

/-- The download of one cache-missed field (lines 680-691): invoke the
engine via the oracle; on success store the renamed file and point the
field at the *temporary* filename (line 685 interpolates `filename`, not
the final path); on failure keep the field and count the error. -/
def mediaFieldDownload (oracle : Oracle) (fileId filename url : List Char) (st : RunState) :
    List Char × RunState :=
  match oracle fileId with
  | .fsucc ext sz =>
    (assetsPrefix ++ filename,
     { st with
        dir := setEntry (removeEntry st.dir filename)
          (replaceFirstSeq filename (extname filename) ext) sz,
        downloadCount := st.downloadCount + 1,
        fetchLog := st.fetchLog ++ [fileId],
        successLog := st.successLog ++ [stripLastDotSegment filename] })
  | .ffail leftover =>
    (url,
     { st with
        dir := if leftover then setEntry st.dir filename 0 else removeEntry st.dir filename,
        errorCount := st.errorCount + 1,
        fetchLog := st.fetchLog ++ [fileId] })

/-- The exact-filename cache check (lines 666-678), falling through to
the download. -/
def mediaFieldStep2 (oracle : Oracle) (fileId filename url : List Char) (st : RunState) :
    List Char × RunState :=
  match lookupEntry st.dir filename with
  | some e =>
    if e.size > 0 then
      (assetsPrefix ++ filename, { st with skipCount := st.skipCount + 1 })
    else mediaFieldDownload oracle fileId filename url st
  | none => mediaFieldDownload oracle fileId filename url st

/-- Processing of one media field of one record (lines 630-692): skip
empty values and values without a Drive identifier; then the
prefix-scan cache check (lines 643-663), the exact-name check, and
finally the download. -/
def mediaFieldStep (oracle : Oracle) (projectName field url : List Char) (st : RunState) :
    List Char × RunState :=
  if url = [] then (url, st)
  else
    match extractDriveFileIdStr url with
    | none => (url, st)
    | some fileId =>
      let filename := createSafeFilename projectName field url tmpLit
      let baseFilename := stripLastDotSegment filename
      let existingFiles :=
        st.dir.filter (fun e => baseFilename.isPrefixOf e.name && !(e.name == filename))
      match existingFiles with
      | e0 :: _ =>
        if e0.size > 0 then
          (assetsPrefix ++ e0.name, { st with skipCount := st.skipCount + 1 })
        else mediaFieldStep2 oracle fileId filename url st
      | [] => mediaFieldStep2 oracle fileId filename url st

/-- Fold `mediaFieldStep` over the media fields of one record in order. -/
def processFields (oracle : Oracle) (projectName : List Char) :
    List (List Char × List Char) → RunState → List (List Char × List Char) × RunState
  | [], st => ([], st)
  | (f, v) :: rest, st =>
    let r1 := mediaFieldStep oracle projectName f v st
    let r2 := processFields oracle projectName rest r1.2
    ((f, r1.1) :: r2.1, r2.2)

/-- Line 614: `project.projectName || "untitled"`. -/
def usedName (p : Project) : List Char :=
  if p.projectName = [] then "untitled".data else p.projectName

/-- Process one record (lines 612-693), defaulting an empty name to
`untitled` (line 614). -/
def processProject (oracle : Oracle) (p : Project) (st : RunState) : Project × RunState :=
  let r := processFields oracle (usedName p) p.media st
  ({ p with media := r.1 }, r.2)

/-- Process all records in order. -/
def processProjects (oracle : Oracle) : List Project → RunState → List Project × RunState
  | [], st => ([], st)
  | p :: ps, st =>
    let r1 := processProject oracle p st
    let r2 := processProjects oracle ps r1.2
    (r1.1 :: r2.1, r2.2)

/-- `path.basename(currentPath, ".tmp")` (line 572): tail after the last
slash, with a trailing `.tmp` suffix stripped. -/
def basenameTmp (p : List Char) : List Char :=
  let b := afterLastSlash p
  if tmpLit.reverse.isPrefixOf b.reverse then b.take (b.length - 4) else b

/-- `syncFilenames` on one field value (lines 567-589): values containing
`.tmp` are re-pointed at the first directory entry whose name starts
with the stripped base name; others are untouched. -/
def syncValue (dir : List Entry) (v : List Char) : List Char :=
  if seqInfix tmpLit v then
    match dir.find? (fun e => (basenameTmp v).isPrefixOf e.name) with
    | some m => assetsPrefix ++ m.name
    | none => v
  else v

/-- `syncFilenames` on one record. -/
def syncProject (dir : List Entry) (p : Project) : Project :=
  { p with media := p.media.map (fun fv => (fv.1, syncValue dir fv.2)) }

/-- `syncFilenames(projects)` (lines 548-593): reconcile every media
field against the directory listing taken after all downloads. -/
def syncFilenames (dir : List Entry) (ps : List Project) : List Project :=
  ps.map (syncProject dir)

/-- Fresh run counters over a starting directory. -/
def initialRunState (dir : List Entry) : RunState :=
  ⟨dir, 0, 0, 0, [], []⟩

/-- One pipeline run over the given records and assets directory
(`processAssets` lines 596-700, with the record source and the JSON
writer as external collaborators): process every record, then reconcile
names, and return the persisted record list plus the final state. -/
def runPipeline (oracle : Oracle) (projects : List Project) (dir0 : List Entry) :
    List Project × RunState :=
  let r := processProjects oracle projects (initialRunState dir0)
  (syncFilenames r.2.dir r.1, r.2)

/-! ## Derived predicates and concrete instances referenced by the
theorems below -/

/-- The first eight bytes of a PNG file. -/
def pngMagic : List Nat := [0x89, 0x50, 0x4E, 0x47, 0x0D, 0x0A, 0x1A, 0x0A]

/-- Does the `ftyp` branch of `detectFileType` fire (first occurrence at
index ≤ 12)? -/
def ftypNear (buffer : List Nat) : Bool :=
  match findSeqIdx ftypSeq buffer with
  | some i => decide (i ≤ 12)
  | none => false

/-- Any of the binary signature checks that precede the HTML guard in
`detectFileTypeRest`. -/
def binarySig (buffer : List Nat) : Bool :=
  (utf8Chars (bufSlice buffer 0 3) == "AVI".data) ||
  (utf8Chars (bufSlice buffer 0 4) == "RIFF".data && utf8Chars (bufSlice buffer 8 12) == "AVI ".data) ||
  (hexChars (bufSlice buffer 0 4) == "1a45dfa3".data) ||
  (hexChars (bufSlice buffer 0 2) == "ffd8".data) ||
  (hexChars (bufSlice buffer 0 8) == "89504e470d0a1a0a".data) ||
  (utf8Chars (bufSlice buffer 0 6) == "GIF87a".data) ||
  (utf8Chars (bufSlice buffer 0 6) == "GIF89a".data) ||
  (utf8Chars (bufSlice buffer 0 4) == "RIFF".data && utf8Chars (bufSlice buffer 8 12) == "WEBP".data)

/-- Cache base name of a (record slug, field name, identifier) triple:
`createSafeFilename` without the extension. -/
def taskBase (slug field id : List Char) : List Char :=
  slug ++ '-' :: field ++ '-' :: id

/-- Sanity conditions on a media field name, satisfied by every member
of `mediaFields`: non-empty, no dot, no slash. -/
def fieldNameOk (f : List Char) : Prop :=
  f ≠ [] ∧ '.' ∉ f ∧ '/' ∉ f

/-- A real final extension: starts with a dot and does not contain the
temporary placeholder `.tmp` (in particular it is not `.tmp` itself).
Every extension the engine can produce — a sniffed extension or a
server-declared one such as `.png`, `.jpeg`, `.mp4` — satisfies this. -/
def goodExtP (ext : List Char) : Prop :=
  ext.head? = some '.' ∧ seqInfix tmpLit ext = false

/-- The (base name, identifier) pairs of the Drive-linked media fields
of one record. -/
def projectTasks (p : Project) : List (List Char × List Char) :=
  p.media.filterMap (fun fv =>
    (extractDriveFileIdStr fv.2).map (fun id => (taskBase (safeName (usedName p)) fv.1 id, id)))

/-- All (base name, identifier) pairs of a record list. -/
def allTasks (ps : List Project) : List (List Char × List Char) :=
  ps.flatMap projectTasks

/-- No distinct cache keys with prefix-comparable base names: when one
base name is a prefix of another, they are the same key (same base and
same identifier). -/
def basesOk (ps : List Project) : Prop :=
  ∀ t1 ∈ allTasks ps, ∀ t2 ∈ allTasks ps, t1.1 <+: t2.1 → t1 = t2

/-- Every successful fetch yields a real extension and a non-empty
file. -/
def oracleOk (oracle : Oracle) : Prop :=
  ∀ id ext sz, oracle id = .fsucc ext sz → goodExtP ext ∧ 0 < sz

/-- Every fetch succeeds. -/
def allSucc (oracle : Oracle) : Prop :=
  ∀ id, ∃ ext sz, oracle id = .fsucc ext sz

/-- All field names of all records are sane. -/
def fieldsOk (ps : List Project) : Prop :=
  ∀ p ∈ ps, ∀ fv ∈ p.media, fieldNameOk fv.1

/-- Concrete sample inputs for witnesses and counterexamples. -/
def sampleUrlX : List Char := "https://drive.google.com/open?id=X".data

/-- A one-record, one-field input. -/
def sampleProject1 : Project :=
  ⟨"p".data, [("thumbnailImage".data, sampleUrlX)]⟩

/-- A record carrying the same Drive URL in two different media
fields. -/
def sampleProject2 : Project :=
  ⟨"p".data, [("thumbnailImage".data, sampleUrlX), ("workImage1".data, sampleUrlX)]⟩

/-- Oracle whose fetches all succeed as small PNG files. -/
def okOracle : Oracle := fun _ => .fsucc ".png".data 1

/-- Oracle whose fetches all fail cleanly. -/
def failOracle : Oracle := fun _ => .ffail false

/-- A directory holding a stale, non-empty temporary file from an
interrupted earlier run. -/
def staleTmpDir : List Entry := [⟨"p-thumbnailImage-X.tmp".data, 5⟩]

/-- Sample starting URL for the download engine. -/
def sampleUrl0 : List Char := "https://x/u0".data

/-- Sample target path of the engine's temporary file. -/
def sampleFp : List Char := "/assets/projects/x.tmp".data

/-- A server that answers every request with a redirect. -/
def loopServer : Server := fun _ => .redirect "https://x/loop".data

/-- A body one byte over the 100MB ceiling. -/
def bigBody : List Nat := List.replicate (maxFileSize + 1) 37

/-- A server that always serves the oversized body. -/
def bigServer : Server := fun _ => .ok bigBody none

/-- A virus-scan interstitial page with confirm token `abc123` and the
given uuid token. -/
def istPage (u : List Char) : List Nat :=
  ("<html><body>virus scan warning <form><input name=\"confirm\" value=\"abc123\"><input name=\"uuid\" value=\"".data
    ++ u ++ "\"></form>".data).map Char.toNat

/-- A small PNG body. -/
def pngBody : List Nat := pngMagic ++ [0, 0, 0, 0]

/-- Reconstructed URL after the first interstitial of `istServer3`. -/
def istD1 : List Char := directDownloadUrl (some "ID1".data) "abc123".data "u-1".data

/-- Reconstructed URL after the second interstitial of `istServer3`. -/
def istD2 : List Char := directDownloadUrl (some "ID1".data) "abc123".data "u-2".data

/-- A server whose confirmed-download URL is answered by a second
token-bearing interstitial before finally serving the media. -/
def istServer3 : Server := fun u =>
  if u = sampleUrl0 then .ok (istPage "u-1".data) none
  else if u = istD1 then .ok (istPage "u-2".data) none
  else if u = istD2 then .ok pngBody none
  else .status 404

/-- A server serving one interstitial (tokens `abc123` / `xyz-789`) whose
confirmed-download URL serves the media. -/
def istServerGood : Server := fun u =>
  if u = sampleUrl0 then .ok (istPage "xyz-789".data) none
  else if u = directDownloadUrl (some "ID1".data) "abc123".data "xyz-789".data then
    .ok pngBody none
  else .status 404

/-- A buffer that begins with the 8-byte PNG magic and carries an
ISO-media `ftyp` atom with brand `mp42` right after it (so the atom
starts at index 8 ≤ 12). -/
def pngFtypBuf : List Nat := pngMagic ++ "ftypmp42".data.map Char.toNat

/-- A small HTML error page. -/
def docBuf : List Nat := "<!DOCTYPE html>".data.map Char.toNat

/-- Decidable equality for `Except` results (needed to evaluate
statements about `detectFileType`). -/
instance exceptDecEq {ε α : Type} [DecidableEq ε] [DecidableEq α] :
    DecidableEq (Except ε α) := fun a b =>
  match a, b with
  | .ok x, .ok y =>
    if h : x = y then .isTrue (by rw [h])
    else .isFalse (by intro hc; injection hc; contradiction)
  | .error x, .error y =>
    if h : x = y then .isTrue (by rw [h])
    else .isFalse (by intro hc; injection hc; contradiction)
  | .ok _, .error _ => .isFalse (by intro hc; injection hc)
  | .error _, .ok _ => .isFalse (by intro hc; injection hc)

/-- Directory classification maintained across a run: every entry is
either pre-existing, the renamed artifact of a successful fetch of one
of the run's cache keys, or the empty temporary left by a failed
fetch. -/
def dirInv (oracle : Oracle) (bases : List (List Char × List Char)) (dir0 : List Entry)
    (dir : List Entry) : Prop :=
  ∀ e ∈ dir, e ∈ dir0 ∨
    (∃ b id ext sz, (b, id) ∈ bases ∧ oracle id = .fsucc ext sz ∧
      e.name = b ++ ext ∧ e.size = sz) ∨
    (∃ b id lv, (b, id) ∈ bases ∧ oracle id = .ffail lv ∧
      e.name = b ++ tmpLit ∧ e.size = 0)

/-- Every successfully downloaded base name has its renamed artifact in
the directory. -/
def slogInv (oracle : Oracle) (bases : List (List Char × List Char)) (st : RunState) : Prop :=
  ∀ b ∈ st.successLog, ∃ id ext sz, (b, id) ∈ bases ∧ oracle id = .fsucc ext sz ∧
    ∃ e ∈ st.dir, e.name = b ++ ext

/-- The at-most-once invariant: the success log is duplicate-free and
the directory and log classifications hold. -/
def c6Inv (oracle : Oracle) (bases : List (List Char × List Char)) (dir0 : List Entry)
    (st : RunState) : Prop :=
  st.successLog.Nodup ∧ dirInv oracle bases dir0 st.dir ∧ slogInv oracle bases st

/-- Context for the at-most-once argument: good extensions, non-empty
pre-existing files, prefix-free cache keys, dot-free base names. -/
def basesCtx (oracle : Oracle) (bases : List (List Char × List Char))
    (dir0 : List Entry) : Prop :=
  oracleOk oracle ∧ (∀ e ∈ dir0, 0 < e.size) ∧
  (∀ t1 ∈ bases, ∀ t2 ∈ bases, t1.1 <+: t2.1 → t1 = t2) ∧
  (∀ t ∈ bases, (∀ c ∈ (t : List Char × List Char).1, c ≠ '.' ∧ c ≠ '/') ∧ t.1 ≠ [])

/-- Directory purity for a run in which every fetch succeeds from an
initially empty directory: every entry is a non-empty renamed artifact
over a sane base name and a real extension. -/
def dirPure (dir : List Entry) : Prop :=
  ∀ e ∈ dir, 0 < e.size ∧ ∃ b ext, e.name = b ++ ext ∧
    (∀ c ∈ b, c ≠ '.' ∧ c ≠ '/') ∧ b ≠ [] ∧ goodExtP ext

/-- The canonical persisted value of a media field against a settled
directory: the first prefix-scan match for Drive-linked fields, the
reconciler's action on everything else. -/
def canonicalValue (d : List Entry) (pn f v : List Char) : List Char :=
  match extractDriveFileIdStr v with
  | none => syncValue d v
  | some id =>
    match d.find? (fun e => (taskBase (safeName pn) f id).isPrefixOf e.name) with
    | some e0 => assetsPrefix ++ e0.name
    | none => v

/-- Canonical persisted record. -/
def canonProject (d : List Entry) (p : Project) : Project :=
  ⟨p.projectName, p.media.map (fun fv => (fv.1, canonicalValue d (usedName p) fv.1 fv.2))⟩

/-- Canonical persisted record list. -/
def canonProjects (d : List Entry) (ps : List Project) : List Project :=
  ps.map (canonProject d)

/-- Relation between a field's input value and its value right after
processing (before reconciliation), against the directory `d`: non-Drive
values are untouched; Drive-linked values either hold the temporary name
(after a download) or the first prefix-scan match (after a cache hit),
and in both cases the scan for the base name is non-empty in `d`. -/
def fieldDone (d : List Entry) (pn f v v2 : List Char) : Prop :=
  match extractDriveFileIdStr v with
  | none => v2 = v
  | some id =>
    d.filter (fun e => (taskBase (safeName pn) f id).isPrefixOf e.name) ≠ [] ∧
    (v2 = assetsPrefix ++ (taskBase (safeName pn) f id ++ tmpLit) ∨
      ∃ e0 r, d.filter (fun e => (taskBase (safeName pn) f id).isPrefixOf e.name) = e0 :: r ∧
        v2 = assetsPrefix ++ e0.name)

/-- Relation between a media field's input value and its value right
after processing in a mixed-outcome run, against the directory `d`:
either the field was kept (non-Drive values, empty values and failed
fetches), or it points at an existing clean local path (a cache hit), or
it holds the temporary path of a fresh successful download whose renamed
artifact is on disk. -/
def fieldDone2 (oracle : Oracle) (d : List Entry) (pn f v v2 : List Char) : Prop :=
  v2 = v ∨
  (∃ b ext, (∀ c ∈ b, c ≠ '.' ∧ c ≠ '/') ∧ b ≠ [] ∧ goodExtP ext ∧
    v2 = assetsPrefix ++ (b ++ ext)) ∨
  (∃ id ext sz, extractDriveFileIdStr v = some id ∧ oracle id = .fsucc ext sz ∧
    v2 = assetsPrefix ++ (taskBase (safeName pn) f id ++ tmpLit) ∧
    ∃ e ∈ d, e.name = taskBase (safeName pn) f id ++ ext)

/-! ## Theorems -/

/-- `bufSlice` from index 0 is `take`. -/
theorem bufSlice_zero (l : List Nat) (k : Nat) : bufSlice l 0 k = l.take k := by
  simp [bufSlice]

/-- Captures returned by `scanFileD` are non-empty runs of identifier
characters. -/
theorem scanFileD_sound : ∀ s r, scanFileD s = some r → r ≠ [] ∧ r.all idChar = true := by
  intro s
  induction s with
  | nil => intro r h; simp [scanFileD] at h
  | cons c cs ih =>
    intro r h
    rw [scanFileD] at h
    split at h
    · dsimp only at h
      split at h
      · rename_i hc
        injection h with h'
        subst h'
        exact ⟨hc.1, List.all_eq_true.mpr fun a ha => List.mem_takeWhile_imp ha⟩
      · exact ih r h
    · exact ih r h

/-- Captures returned by `scanOpenId` are non-empty runs of identifier
characters. -/
theorem scanOpenId_sound : ∀ s r, scanOpenId s = some r → r ≠ [] ∧ r.all idChar = true := by
  intro s
  induction s with
  | nil => intro r h; simp [scanOpenId] at h
  | cons c cs ih =>
    intro r h
    rw [scanOpenId] at h
    split at h
    · dsimp only at h
      split at h
      · rename_i hc
        injection h with h'
        subst h'
        exact ⟨hc, List.all_eq_true.mpr fun a ha => List.mem_takeWhile_imp ha⟩
      · exact ih r h
    · exact ih r h

/-- Captures returned by `lastDSlash` are non-empty runs of identifier
characters. -/
theorem lastDSlash_sound : ∀ s r, lastDSlash s = some r → r ≠ [] ∧ r.all idChar = true := by
  intro s
  induction s with
  | nil => intro r h; simp [lastDSlash] at h
  | cons c cs ih =>
    intro r h
    rw [lastDSlash] at h
    split at h
    · rename_i q hq
      injection h with h'
      subst h'
      exact ih q hq
    · dsimp only at h
      split at h
      · split at h
        · rename_i hc
          injection h with h'
          subst h'
          exact ⟨hc, List.all_eq_true.mpr fun a ha => List.mem_takeWhile_imp ha⟩
        · simp at h
      · simp at h

/-- Captures returned by `scanDocs` are non-empty runs of identifier
characters. -/
theorem scanDocs_sound : ∀ s r, scanDocs s = some r → r ≠ [] ∧ r.all idChar = true := by
  intro s
  induction s with
  | nil => intro r h; simp [scanDocs] at h
  | cons c cs ih =>
    intro r h
    rw [scanDocs] at h
    split at h
    · split at h
      · rename_i heq
        injection h with h'
        subst h'
        exact lastDSlash_sound _ _ heq
      · exact ih r h
    · exact ih r h

/-- C9: identifier extraction is a total pure function: on every input —
including non-string values — it either returns a non-empty identifier
drawn from the pattern capture class, or `none`; non-strings and the
falsy empty string yield `none`, and no input can make it throw (it is a
total Lean function). -/
theorem c9_extract_total :
    (∀ v id, extractDriveFileId v = some id → id ≠ [] ∧ id.all idChar = true) ∧
    extractDriveFileId .jother = none ∧ extractDriveFileId (.jstr []) = none := by
  refine ⟨?_, rfl, rfl⟩
  intro v id h
  match v with
  | .jother => simp [extractDriveFileId] at h
  | .jstr s =>
    rw [extractDriveFileId] at h
    split at h
    · exact absurd h (by simp)
    · cases h1 : scanFileD s with
      | some r => rw [h1] at h; injection h with h'; subst h'; exact scanFileD_sound _ _ h1
      | none =>
        rw [h1] at h
        cases h2 : scanOpenId s with
        | some r => rw [h2] at h; injection h with h'; subst h'; exact scanOpenId_sound _ _ h2
        | none => rw [h2] at h; exact scanDocs_sound _ _ h

/-- Witness for C9 at a concrete Drive URL. -/
theorem c9_extract_total_witness :
    "X".data ≠ [] ∧ "X".data.all idChar = true :=
  c9_extract_total.1 (.jstr sampleUrlX) "X".data (by decide)

/-- Heads of decoded byte lists: disagreement on the first character
refutes a string equality. -/
theorem utf8Chars_head_ne (b : Nat) (l : List Nat) (c : Char) (cs : List Char)
    (h : Char.ofNat b ≠ c) : utf8Chars (b :: l) ≠ c :: cs := by
  intro hc
  rw [utf8Chars, List.map_cons] at hc
  injection hc with h1 _
  exact h h1

/-- Disagreement on the first hex digit refutes a hex-string equality. -/
theorem hexChars_head_ne (b : Nat) (l : List Nat) (c : Char) (cs : List Char)
    (h : hexDigit (b / 16 % 16) ≠ c) : hexChars (b :: l) ≠ c :: cs := by
  intro hc
  rw [hexChars, List.flatMap_cons] at hc
  injection hc with h1 _
  exact h h1

/-- When the `ftyp` branch does not fire, `detectFileType` falls through
to the remaining signature checks. -/
theorem detectFileType_not_ftyp (buf : List Nat) (hf : ftypNear buf = false) :
    detectFileType buf = detectFileTypeRest buf := by
  rw [detectFileType]
  rw [ftypNear] at hf
  cases hidx : findSeqIdx ftypSeq buf with
  | none => rfl
  | some i =>
    rw [hidx] at hf
    simp at hf
    dsimp only
    rw [if_neg (by omega)]

/-- C8 (amended): the sniffer honours the PNG and JPEG signatures and
the small-HTML guard only when no earlier branch of its priority order
preempts them: a buffer beginning with the PNG magic sniffs as `.png`
and one beginning with `FFD8` as `.jpg` provided no `ftyp` atom sits in
the first 12 bytes, and a buffer under 5KB whose first 100 bytes contain
`<!DOCTYPE` raises the classification error provided additionally no
binary signature matches. -/
theorem c8_sniffer_signatures :
    (∀ t : List Nat, ftypNear (pngMagic ++ t) = false →
      detectFileType (pngMagic ++ t) = .ok ".png".data) ∧
    (∀ t : List Nat, ftypNear (0xFF :: 0xD8 :: t) = false →
      detectFileType (0xFF :: 0xD8 :: t) = .ok ".jpg".data) ∧
    (∀ buf : List Nat, buf.length < 5000 →
      seqInfix "<!DOCTYPE".data (asciiChars (bufSlice buf 0 (min 100 buf.length))) = true →
      ftypNear buf = false → binarySig buf = false →
      ∃ m, detectFileType buf = .error m) := by
  refine ⟨?_, ?_, ?_⟩
  · intro t hf
    have e3 : bufSlice (pngMagic ++ t) 0 3 = [0x89, 0x50, 0x4E] := rfl
    have e4 : bufSlice (pngMagic ++ t) 0 4 = [0x89, 0x50, 0x4E, 0x47] := rfl
    have e2 : bufSlice (pngMagic ++ t) 0 2 = [0x89, 0x50] := rfl
    have e8 : bufSlice (pngMagic ++ t) 0 8 = pngMagic := rfl
    rw [detectFileType_not_ftyp _ hf, detectFileTypeRest, e3, e4, e2, e8]
    rw [if_neg (by decide)]
    rw [if_neg (fun hc => absurd hc.1 (by decide))]
    rw [if_neg (by decide)]
    rw [if_neg (by decide)]
    rw [if_pos (by decide)]
  · intro t hf
    have e3 : bufSlice (0xFF :: 0xD8 :: t) 0 3 = 0xFF :: 0xD8 :: t.take 1 := rfl
    have e4 : bufSlice (0xFF :: 0xD8 :: t) 0 4 = 0xFF :: 0xD8 :: t.take 2 := rfl
    have e2 : bufSlice (0xFF :: 0xD8 :: t) 0 2 = [0xFF, 0xD8] := rfl
    rw [detectFileType_not_ftyp _ hf, detectFileTypeRest, e3, e4, e2]
    rw [if_neg (utf8Chars_head_ne _ _ _ _ (by decide))]
    rw [if_neg (fun hc => absurd hc.1 (utf8Chars_head_ne _ _ _ _ (by decide)))]
    rw [if_neg (hexChars_head_ne _ _ _ _ (by decide))]
    rw [if_pos (by decide)]
  · intro buf hlen hdoc hf hsig
    rw [binarySig] at hsig
    simp only [Bool.or_eq_false_iff] at hsig
    obtain ⟨⟨⟨⟨⟨⟨⟨s1, s2⟩, s3⟩, s4⟩, s5⟩, s6⟩, s7⟩, s8⟩ := hsig
    rw [detectFileType_not_ftyp _ hf, detectFileTypeRest]
    rw [if_neg (by simpa using s1)]
    rw [if_neg (fun hc => by
      rw [Bool.and_eq_false_iff] at s2
      rcases s2 with h | h
      · exact absurd hc.1 (by simpa using h)
      · exact absurd hc.2 (by simpa using h))]
    rw [if_neg (by simpa using s3)]
    rw [if_neg (by simpa using s4)]
    rw [if_neg (by simpa using s5)]
    rw [if_neg (fun hc => by
      rcases hc with h | h
      · exact absurd h (by simpa using s6)
      · exact absurd h (by simpa using s7))]
    rw [if_neg (fun hc => by
      rw [Bool.and_eq_false_iff] at s8
      rcases s8 with h | h
      · exact absurd hc.1 (by simpa using h)
      · exact absurd hc.2 (by simpa using h))]
    rw [if_neg (by omega : ¬(buf.length > 1024 * 1024))]
    rw [if_neg (fun hc => absurd hc.1 (by omega))]
    rw [if_pos ⟨hlen, Or.inr hdoc⟩]
    exact ⟨_, rfl⟩

/-- Counterexample to C8 as stated: this buffer begins with the 8-byte
PNG magic, yet the sniffer returns `.mp4` (not `.png`), because the
`ftyp`-atom check runs before the PNG signature check. -/
theorem c8_counterexample :
    pngFtypBuf.take 8 = pngMagic ∧
      detectFileType pngFtypBuf = .ok ".mp4".data ∧
      detectFileType pngFtypBuf ≠ .ok ".png".data := by
  refine ⟨by decide, by decide, ?_⟩
  intro hc
  have h1 : detectFileType pngFtypBuf = .ok ".mp4".data := by decide
  rw [h1] at hc
  exact absurd hc (by decide)

/-- Witness for C8 at the empty tails and a concrete HTML page. -/
theorem c8_sniffer_signatures_witness :
    detectFileType (pngMagic ++ []) = .ok ".png".data ∧
    detectFileType (0xFF :: 0xD8 :: []) = .ok ".jpg".data ∧
    ∃ m, detectFileType docBuf = .error m :=
  ⟨c8_sniffer_signatures.1 [] (by decide),
   c8_sniffer_signatures.2.1 [] (by decide),
   c8_sniffer_signatures.2.2 docBuf (by decide) (by decide) (by decide) (by decide)⟩

/-- C3: the redirect-following recursion of `downloadFile` has no hop
cap at all: against a server that always answers with a redirect, the
call tree never completes within any recursion budget — for every fuel
value the interpreter still reports `outOfFuel`, so the source function,
which has no such budget, recurses without bound instead of failing
after about 10 hops as the specification requires. -/
theorem c3_redirect_no_hop_cap :
    ∀ fuel retries fileId fp st url, 1 ≤ retries →
      (dlRun loopServer fuel url retries fileId fp st).1 = .outOfFuel := by
  intro fuel
  induction fuel with
  | zero =>
    intro retries fileId fp st url _
    rfl
  | succ f ih =>
    intro retries fileId fp st url hr
    rw [dlRun]
    dsimp only
    cases retries with
    | zero => omega
    | succ a =>
      rw [dlLoopF.eq_def]
      dsimp only
      have hA : dlAttemptF loopServer (fun u r i s => dlRun loopServer f u r i fp s)
          url (a + 1) fileId fp st =
          dlRun loopServer f "https://x/loop".data (a + 1) fileId fp
            ⟨some (fp, []), st.log ++ [url]⟩ := rfl
      rw [hA]
      rcases hE : dlRun loopServer f "https://x/loop".data (a + 1) fileId fp
          ⟨some (fp, []), st.log ++ [url]⟩ with ⟨res, st2⟩
      have hres : res = .outOfFuel := by
        have h := ih (a + 1) fileId fp ⟨some (fp, []), st.log ++ [url]⟩ "https://x/loop".data hr
        rw [hE] at h
        exact h
      subst hres
      rfl

/-- Witness for C3 at a concrete budget and retry count. -/
theorem c3_redirect_no_hop_cap_witness :
    (dlRun loopServer 7 sampleUrl0 2 none sampleFp ⟨none, []⟩).1 = .outOfFuel :=
  c3_redirect_no_hop_cap 7 2 none sampleFp ⟨none, []⟩ sampleUrl0 (by omega)

/-- Against a server that always serves a body over the ceiling, every
attempt of the retry loop fails with the size error, deletes the partial
file, and is retried until the budget is exhausted. -/
theorem dlLoopF_oversized (server : Server)
    (hbig : ∀ u, ∃ body cd, server u = .ok body cd ∧ maxFileSize < body.length)
    (recur : List Char → Nat → Option (List Char) → DlState → DlRes × DlState)
    (url : List Char) (retries : Nat) (fileId : Option (List Char)) (fp : List Char) :
    ∀ a st, 1 ≤ a →
      dlLoopF server recur url retries fileId fp a st =
        (.failure .tooLarge, ⟨none, st.log ++ List.replicate a url⟩) := by
  intro a
  induction a with
  | zero => intro st h; omega
  | succ a ih =>
    intro st _
    have hA : dlAttemptF server recur url retries fileId fp st =
        (.failure .tooLarge, ⟨none, st.log ++ [url]⟩) := by
      rw [dlAttemptF]
      obtain ⟨body, cd, hs, hlen⟩ := hbig url
      rw [hs]
      dsimp only
      rw [if_pos (by omega)]
    rw [dlLoopF, hA]
    dsimp only
    cases a with
    | zero => simp
    | succ b =>
      rw [if_neg (by omega)]
      rw [ih ⟨none, st.log ++ [url]⟩ (by omega)]
      simp [List.replicate_succ]

/-- C4 (amended): a download whose body exceeds the ceiling is aborted
with the size-exceeded error and the partial file is removed — but the
error is *not* immediately fatal: like any other per-attempt error it is
retried under the normal attempt budget, once per remaining attempt,
and only after the budget is exhausted does the fetch fail. -/
theorem c4_size_exceeded (server : Server)
    (hbig : ∀ u, ∃ body cd, server u = .ok body cd ∧ maxFileSize < body.length)
    (fuel retries : Nat) (fileId : Option (List Char)) (fp : List Char) (st : DlState)
    (url : List Char) (hf : 1 ≤ fuel) (hr : 1 ≤ retries) :
    dlRun server fuel url retries fileId fp st =
      (.failure .tooLarge, ⟨none, st.log ++ List.replicate retries url⟩) := by
  cases fuel with
  | zero => omega
  | succ f =>
    rw [dlRun]
    exact dlLoopF_oversized server hbig _ url retries fileId fp retries st hr

/-- The oversized-body hypothesis holds for the concrete `bigServer`. -/
theorem bigServer_oversized :
    ∀ u, ∃ body cd, bigServer u = .ok body cd ∧ maxFileSize < body.length := by
  intro u
  refine ⟨bigBody, none, rfl, ?_⟩
  rw [bigBody, List.length_replicate]
  omega

/-- Witness for C4: with the default budget of two attempts, the
oversized fetch ends in the size error, no file on disk, after exactly
two requests. -/
theorem c4_size_exceeded_witness :
    dlRun bigServer 3 sampleUrl0 2 none sampleFp ⟨none, []⟩ =
      (.failure .tooLarge, ⟨none, [sampleUrl0, sampleUrl0]⟩) := by
  rw [c4_size_exceeded bigServer bigServer_oversized 3 2 none sampleFp ⟨none, []⟩
    sampleUrl0 (by omega) (by omega)]
  rfl

/-- Counterexample to C4 as stated: the size-exceeded error is *not*
immediately fatal — the engine issues a second request for the same
oversized asset, consuming the attempt/backoff retry budget. -/
theorem c4_counterexample :
    (dlRun bigServer 3 sampleUrl0 2 none sampleFp ⟨none, []⟩).2.log.length = 2 ∧
    (dlRun bigServer 3 sampleUrl0 2 none sampleFp ⟨none, []⟩).1 = .failure .tooLarge := by
  have h0 : dlRun bigServer 3 sampleUrl0 2 none sampleFp ⟨none, []⟩ =
      dlLoopF bigServer (fun u r i s => dlRun bigServer 2 u r i sampleFp s)
        sampleUrl0 2 none sampleFp 2 ⟨none, []⟩ := rfl
  rw [h0, dlLoopF_oversized bigServer bigServer_oversized _ sampleUrl0 2 none sampleFp 2
    ⟨none, []⟩ (by omega)]
  exact ⟨rfl, rfl⟩

/-- C5 (amended): a 200 response whose body is the virus-scan
interstitial with both hidden tokens makes the engine delete the partial
file and issue exactly one retried request — to the reconstructed URL
carrying the same file identifier and both extracted tokens — with the
follow-up's retry budget set to 1, and the whole handling resolves
within the current attempt, so it consumes at most one caller-visible
retry-budget slot (the conclusion holds already at `retries = 1`).  The
budget does **not** cap the interstitial chain itself: a follow-up
answered by another token-bearing interstitial triggers a further
reconstructed request (see the counterexample). -/
theorem c5_interstitial_retry (server : Server) (url0 : List Char) (body body2 : List Nat)
    (cd1 : Option (List Char)) (fileId : Option (List Char)) (cv uv : List Char)
    (h1 : server url0 = .ok body cd1)
    (hlen : ¬ maxFileSize < body.length)
    (hhtml : looksHtml body = true)
    (hvirus : virusWarning body = true)
    (hcv : hiddenField "confirm".data (first1000Utf8 body) = some cv)
    (huv : hiddenField "uuid".data (first1000Utf8 body) = some uv)
    (h2 : server (directDownloadUrl fileId cv uv) = .ok body2 none)
    (hlen2 : ¬ maxFileSize < body2.length)
    (hhtml2 : looksHtml body2 = false)
    (hdet : ∃ e, detectFileType body2 = .ok e) :
    ∀ fuel retries st fp, 2 ≤ fuel → 1 ≤ retries →
      ∃ p, dlRun server fuel url0 retries fileId fp st =
        (.success p, ⟨some (p, body2), st.log ++ [url0, directDownloadUrl fileId cv uv]⟩) := by
  intro fuel retries st fp hf hr
  obtain ⟨e, he⟩ := hdet
  cases fuel with
  | zero => omega
  | succ f =>
    cases f with
    | zero => omega
    | succ f2 =>
      cases retries with
      | zero => omega
      | succ a =>
        have hB : dlRun server (f2 + 1) (directDownloadUrl fileId cv uv) 1 fileId fp
            ⟨none, st.log ++ [url0]⟩ =
            (if extname fp = e then
              (.success fp,
                ⟨some (fp, body2), (st.log ++ [url0]) ++ [directDownloadUrl fileId cv uv]⟩)
            else
              (.success (replaceFirstSeq fp (extname fp) e),
                ⟨some (replaceFirstSeq fp (extname fp) e, body2),
                  (st.log ++ [url0]) ++ [directDownloadUrl fileId cv uv]⟩)) := by
          rw [dlRun]
          dsimp only
          rw [dlLoopF.eq_def]
          dsimp only
          have hA2 : dlAttemptF server (fun u r i s => dlRun server f2 u r i fp s)
              (directDownloadUrl fileId cv uv) 1 fileId fp ⟨none, st.log ++ [url0]⟩ =
              (if extname fp = e then
                (.success fp,
                  ⟨some (fp, body2), (st.log ++ [url0]) ++ [directDownloadUrl fileId cv uv]⟩)
              else
                (.success (replaceFirstSeq fp (extname fp) e),
                  ⟨some (replaceFirstSeq fp (extname fp) e, body2),
                    (st.log ++ [url0]) ++ [directDownloadUrl fileId cv uv]⟩)) := by
            rw [dlAttemptF, h2]
            dsimp only
            rw [if_neg hlen2]
            rw [if_neg (by rw [hhtml2]; exact Bool.false_ne_true)]
            rw [show parseContentDisposition none = none from rfl]
            dsimp only
            rw [he]
            dsimp only
            by_cases hex : extname fp = e
            · rw [if_neg (by simpa using hex), if_pos hex]
            · rw [if_pos hex, if_neg hex]
          rw [hA2]
          by_cases hex : extname fp = e
          · rw [if_pos hex]
          · rw [if_neg hex]
        rw [dlRun]
        dsimp only
        rw [dlLoopF.eq_def]
        dsimp only
        have hA : dlAttemptF server (fun u r i s => dlRun server (f2 + 1) u r i fp s)
            url0 (a + 1) fileId fp st =
            dlRun server (f2 + 1) (directDownloadUrl fileId cv uv) 1 fileId fp
              ⟨none, st.log ++ [url0]⟩ := by
          rw [dlAttemptF, h1]
          dsimp only
          rw [if_neg hlen]
          rw [if_pos hhtml, if_pos hvirus, hcv, huv]
        rw [hA, hB]
        by_cases hex : extname fp = e
        · rw [if_pos hex]
          exact ⟨fp, by simp⟩
        · rw [if_neg hex]
          exact ⟨replaceFirstSeq fp (extname fp) e, by simp⟩

/-- Witness for C5: the well-behaved interstitial server with tokens
`abc123` / `xyz-789` resolves in one follow-up request. -/
theorem c5_interstitial_retry_witness :
    ∃ p, dlRun istServerGood 5 sampleUrl0 2 (some "ID1".data) sampleFp ⟨none, []⟩ =
      (.success p,
        ⟨some (p, pngBody),
          [] ++ [sampleUrl0,
            directDownloadUrl (some "ID1".data) "abc123".data "xyz-789".data]⟩) :=
  c5_interstitial_retry istServerGood sampleUrl0 (istPage "xyz-789".data) pngBody
    none (some "ID1".data) "abc123".data "xyz-789".data (by decide) (by decide)
    (by decide) (by decide) (by decide) (by decide) (by decide) (by decide) (by decide)
    ⟨".png".data, by decide⟩ 5 2 ⟨none, []⟩ sampleFp (by omega) (by omega)

/-- Counterexample to C5 as stated: when the confirmed-download URL is
itself answered by another token-bearing interstitial, the engine issues
a second reconstructed request within the same logical attempt — the
follow-up budget of 1 does not stop the interstitial retry chain from
extending further. -/
theorem c5_counterexample :
    (dlRun istServer3 10 sampleUrl0 2 (some "ID1".data) sampleFp ⟨none, []⟩).2.log =
      [sampleUrl0, istD1, istD2] ∧
    (dlRun istServer3 10 sampleUrl0 2 (some "ID1".data) sampleFp ⟨none, []⟩).1 =
      .success "/assets/projects/x.png".data := by
  decide

/-- C10: the project-name normalisation is not injective: two distinct
project names (differing in case and punctuation) produce the identical
cache filename for the same field and identifier. -/
theorem c10_slug_collision :
    createSafeFilename "My Project".data "thumbnailImage".data sampleUrlX tmpLit =
      createSafeFilename "my-project".data "thumbnailImage".data sampleUrlX tmpLit ∧
    "My Project".data ≠ "my-project".data := by
  decide

/-! ### Structural lemmas about names, slugs and the reconciler -/

/-- `seqInfix` decides list infixhood. -/
theorem seqInfix_iff (pat l : List Char) : seqInfix pat l = true ↔ pat <:+: l := by
  induction l with
  | nil =>
    rw [seqInfix]
    simp [List.isEmpty_iff]
  | cons c rest ih =>
    rw [seqInfix]
    simp [List.isPrefixOf_iff_prefix, ih, List.infix_cons_iff]

/-- Extracted identifiers are non-empty runs of identifier characters. -/
theorem extract_sound (s id : List Char) (h : extractDriveFileIdStr s = some id) :
    id ≠ [] ∧ id.all idChar = true := by
  rw [extractDriveFileIdStr, extractDriveFileId] at h
  split at h
  · exact absurd h (by simp)
  · cases h1 : scanFileD s with
    | some r => rw [h1] at h; injection h with h2; subst h2; exact scanFileD_sound _ _ h1
    | none =>
      rw [h1] at h
      cases h2 : scanOpenId s with
      | some r => rw [h2] at h; injection h with h3; subst h3; exact scanOpenId_sound _ _ h2
      | none => rw [h2] at h; exact scanDocs_sound _ _ h

/-- `takeWhile` passes over a block whose members all satisfy the
predicate. -/
theorem takeWhile_append_of_all {p : Char → Bool} (l1 l2 : List Char)
    (h : ∀ c ∈ l1, p c = true) :
    (l1 ++ l2).takeWhile p = l1 ++ l2.takeWhile p := by
  induction l1 with
  | nil => simp
  | cons c l1 ih =>
    rw [List.cons_append, List.takeWhile_cons, h c (by simp), ih (fun d hd => h d (by simp [hd]))]
    rfl

/-- With a known identifier, `createSafeFilename` is the task base name
plus the extension. -/
theorem createSafeFilename_eq (pn f url ext id : List Char)
    (h : extractDriveFileIdStr url = some id) :
    createSafeFilename pn f url ext = taskBase (safeName pn) f id ++ ext := by
  rw [createSafeFilename, h, taskBase, interpId]

/-- Stripping the last dot segment of `base ++ ".tmp"` recovers `base`:
the reversed string starts `p m t .`, so the first dot of the reversal
is the `.tmp` dot. -/
theorem stripLastDot_tmp (base : List Char) :
    stripLastDotSegment (base ++ tmpLit) = base := by
  rw [stripLastDotSegment]
  have hrev : (base ++ tmpLit).reverse = 'p' :: 'm' :: 't' :: '.' :: base.reverse := by
    rw [List.reverse_append]
    rfl
  rw [hrev]
  have htw : List.takeWhile (fun c => decide (c ≠ '.')) ('p' :: 'm' :: 't' :: '.' :: base.reverse) =
      ['p', 'm', 't'] := rfl
  rw [htw]
  rw [if_neg (by simp)]
  simp

/-- `path.basename(..., ".tmp")` recovers the base name of a temporary
asset path whose base contains no slash. -/
theorem basenameTmp_eq (base : List Char) (hs : ∀ c ∈ base, c ≠ '/') :
    basenameTmp (assetsPrefix ++ (base ++ tmpLit)) = base := by
  rw [basenameTmp]
  have h1 : afterLastSlash (assetsPrefix ++ (base ++ tmpLit)) = base ++ tmpLit := by
    rw [afterLastSlash, List.reverse_append]
    rw [takeWhile_append_of_all _ _ (by
      intro c hc
      rw [List.mem_reverse] at hc
      rcases List.mem_append.mp hc with hb | ht
      · simpa using hs c hb
      · rw [tmpLit] at ht
        rcases List.mem_cons.mp ht with h1 | h1
        · subst h1; decide
        · rcases List.mem_cons.mp h1 with h2 | h2
          · subst h2; decide
          · rcases List.mem_cons.mp h2 with h3 | h3
            · subst h3; decide
            · rcases List.mem_cons.mp h3 with h4 | h4
              · subst h4; decide
              · simp at h4)]
    rw [show List.takeWhile (fun c => decide (c ≠ '/')) assetsPrefix.reverse = [] from by decide]
    simp
  rw [h1]
  rw [if_pos (by
    rw [List.reverse_append]
    rw [List.isPrefixOf_iff_prefix]
    rw [show tmpLit.reverse = ['p', 'm', 't', '.'] from rfl]
    exact List.prefix_append _ _)]
  rw [show (base ++ tmpLit).length - 4 = base.length from by simp [tmpLit]]
  exact List.take_left base tmpLit

/-- Elements of `squeezeDashes l` come from `l`. -/
theorem squeezeDashes_subset : ∀ l : List Char, ∀ c ∈ squeezeDashes l, c ∈ l := by
  intro l
  induction l with
  | nil => simp [squeezeDashes]
  | cons a rest ih =>
    cases rest with
    | nil => simp [squeezeDashes]
    | cons b rest2 =>
      intro c hc
      rw [squeezeDashes] at hc
      split at hc
      · simpa using Or.inr (ih c hc)
      · rcases List.mem_cons.mp hc with h | h
        · simp [h]
        · simpa using Or.inr (ih c h)

/-- Every character of a slug is a lowercase alphanumeric or a dash. -/
theorem safeName_chars (pn : List Char) :
    ∀ c ∈ safeName pn, lowerAlnum c = true ∨ c = '-' := by
  intro c hc
  rw [safeName, trimDashes] at hc
  rw [List.mem_reverse] at hc
  have hc2 := (List.dropWhile_sublist _).subset hc
  rw [List.mem_reverse] at hc2
  have hc3 := (List.dropWhile_sublist _).subset hc2
  have hc4 := squeezeDashes_subset _ c hc3
  rw [dashify] at hc4
  obtain ⟨d, _, hd2⟩ := List.mem_map.mp hc4
  by_cases h : lowerAlnum d = true
  · rw [if_pos h] at hd2
    subst hd2
    exact Or.inl h
  · rw [if_neg h] at hd2
    exact Or.inr hd2.symm

/-- Slug characters are never dots or slashes. -/
theorem safeName_no_dot_slash (pn : List Char) :
    ∀ c ∈ safeName pn, c ≠ '.' ∧ c ≠ '/' := by
  intro c hc
  rcases safeName_chars pn c hc with h | h
  · refine ⟨?_, ?_⟩ <;> rintro rfl <;> exact absurd h (by decide)
  · subst h
    exact ⟨by decide, by decide⟩

/-- Identifier characters are never dots or slashes. -/
theorem idChar_no_dot_slash (c : Char) (h : idChar c = true) : c ≠ '.' ∧ c ≠ '/' := by
  constructor <;> rintro rfl <;> exact absurd h (by decide)

/-- A task base name contains no dot and no slash when its field name
does not. -/
theorem taskBase_no_dot_slash (pn f id : List Char) (hf : fieldNameOk f)
    (hid : id.all idChar = true) :
    ∀ c ∈ taskBase (safeName pn) f id, c ≠ '.' ∧ c ≠ '/' := by
  intro c hc
  rw [taskBase] at hc
  rcases List.mem_append.mp hc with h | h
  · rcases List.mem_append.mp h with h2 | h2
    · exact safeName_no_dot_slash pn c h2
    · rcases List.mem_cons.mp h2 with h3 | h3
      · subst h3; exact ⟨by decide, by decide⟩
      · rcases hf with ⟨_, hdot, hslash⟩
        exact ⟨fun hc2 => hdot (hc2 ▸ h3), fun hc2 => hslash (hc2 ▸ h3)⟩
  · rcases List.mem_cons.mp h with h3 | h3
    · subst h3; exact ⟨by decide, by decide⟩
    · exact idChar_no_dot_slash c (List.all_eq_true.mp hid c h3)

/-- An infix whose first character avoids a block lives in the tail
block. -/
theorem infix_right_of_head_notin {pat a b : List Char} (hh : pat.head? = some '.')
    (ha : ∀ c ∈ a, c ≠ '.') (h : pat <:+: a ++ b) : pat <:+: b := by
  induction a with
  | nil => simpa using h
  | cons c a2 ih =>
    rw [List.cons_append, List.infix_cons_iff] at h
    rcases h with hp | h
    · cases pat with
      | nil => simp at hh
      | cons p0 pr =>
        have hp0 : p0 = '.' := by
          rw [List.head?_cons] at hh
          injection hh
        obtain ⟨t, ht⟩ := hp
        rw [List.cons_append] at ht
        injection ht with ht1 _
        exact absurd (ht1.symm.trans hp0) (ha c (by simp))
    · exact ih (fun d hd => ha d (by simp [hd])) h

/-- C7: when a cache-missed field's download fails after its retry
budget, the orchestrator catches the failure: the field keeps its
original external URL, the error counter increments by exactly one, the
download and skip counters are untouched, and processing continues with
the remaining fields of the record from the updated state (and, in
general, with the remaining records): one asset failure never aborts the
batch and never alters other fields. -/
theorem c7_failure_contained (oracle : Oracle) (projectName field url id : List Char)
    (st : RunState) (lv : Bool) (rest : List (List Char × List Char))
    (hurl : url ≠ [])
    (hid : extractDriveFileIdStr url = some id)
    (hm1 : ∀ e0 rest2, st.dir.filter
        (fun e => (stripLastDotSegment (createSafeFilename projectName field url tmpLit)).isPrefixOf e.name
          && !(e.name == createSafeFilename projectName field url tmpLit)) = e0 :: rest2 →
        e0.size = 0)
    (hm2 : ∀ e, lookupEntry st.dir (createSafeFilename projectName field url tmpLit) = some e →
        e.size = 0)
    (hfail : oracle id = .ffail lv) :
    (processFields oracle projectName ((field, url) :: rest) st =
      ((field, url) :: (processFields oracle projectName rest
          { st with
              dir := if lv then setEntry st.dir (createSafeFilename projectName field url tmpLit) 0
                else removeEntry st.dir (createSafeFilename projectName field url tmpLit),
              errorCount := st.errorCount + 1,
              fetchLog := st.fetchLog ++ [id] }).1,
        (processFields oracle projectName rest
          { st with
              dir := if lv then setEntry st.dir (createSafeFilename projectName field url tmpLit) 0
                else removeEntry st.dir (createSafeFilename projectName field url tmpLit),
              errorCount := st.errorCount + 1,
              fetchLog := st.fetchLog ++ [id] }).2)) ∧
    (∀ p ps st2, processProjects oracle (p :: ps) st2 =
      ((processProject oracle p st2).1 ::
          (processProjects oracle ps (processProject oracle p st2).2).1,
        (processProjects oracle ps (processProject oracle p st2).2).2)) := by
  constructor
  · have hstep : mediaFieldStep oracle projectName field url st =
        (url, { st with
          dir := if lv then setEntry st.dir (createSafeFilename projectName field url tmpLit) 0
            else removeEntry st.dir (createSafeFilename projectName field url tmpLit),
          errorCount := st.errorCount + 1,
          fetchLog := st.fetchLog ++ [id] }) := by
      rw [mediaFieldStep, if_neg (by simpa using hurl), hid]
      dsimp only
      have hdl : mediaFieldDownload oracle id (createSafeFilename projectName field url tmpLit)
          url st =
          (url, { st with
            dir := if lv then setEntry st.dir (createSafeFilename projectName field url tmpLit) 0
              else removeEntry st.dir (createSafeFilename projectName field url tmpLit),
            errorCount := st.errorCount + 1,
            fetchLog := st.fetchLog ++ [id] }) := by
        rw [mediaFieldDownload, hfail]
      have hstep2 : mediaFieldStep2 oracle id (createSafeFilename projectName field url tmpLit)
          url st =
          (url, { st with
            dir := if lv then setEntry st.dir (createSafeFilename projectName field url tmpLit) 0
              else removeEntry st.dir (createSafeFilename projectName field url tmpLit),
            errorCount := st.errorCount + 1,
            fetchLog := st.fetchLog ++ [id] }) := by
        rw [mediaFieldStep2]
        cases hl : lookupEntry st.dir (createSafeFilename projectName field url tmpLit) with
        | none =>
          dsimp only
          exact hdl
        | some e =>
          dsimp only
          rw [if_neg (show ¬ e.size > 0 from by rw [hm2 e hl]; omega)]
          exact hdl
      cases hx : st.dir.filter
          (fun e => (stripLastDotSegment (createSafeFilename projectName field url tmpLit)).isPrefixOf e.name
            && !(e.name == createSafeFilename projectName field url tmpLit)) with
      | nil =>
        dsimp only
        exact hstep2
      | cons e0 rest2 =>
        dsimp only
        rw [if_neg (show ¬ e0.size > 0 from by rw [hm1 e0 rest2 hx]; omega)]
        exact hstep2
    rw [processFields, hstep]
  · intro p ps st2
    rw [processProjects]

/-- Witness for C7 on a concrete failing fetch. -/
theorem c7_failure_contained_witness :
    processFields failOracle "p".data [("thumbnailImage".data, sampleUrlX)]
        (initialRunState []) =
      ([("thumbnailImage".data, sampleUrlX)],
        { dir := [], downloadCount := 0, skipCount := 0, errorCount := 1,
          fetchLog := ["X".data], successLog := [] }) := by
  have h := (c7_failure_contained failOracle "p".data "thumbnailImage".data sampleUrlX
    "X".data (initialRunState []) false [] (by decide) (by decide)
    (by intro e0 rest2 hx; simp [initialRunState] at hx)
    (by intro e hl; simp [initialRunState, lookupEntry] at hl)
    rfl).1
  rw [h]
  decide

/-! ### Directory and prefix lemmas -/

/-- Members of `setEntry` are old entries or the written one. -/
theorem mem_setEntry {dir : List Entry} {n : List Char} {sz : Nat} {e : Entry}
    (h : e ∈ setEntry dir n sz) : e ∈ dir ∨ (e.name = n ∧ e.size = sz) := by
  rw [setEntry] at h
  split at h
  · obtain ⟨e2, he2, hmap⟩ := List.mem_map.mp h
    by_cases hn : e2.name == n
    · rw [if_pos hn] at hmap
      right
      rw [← hmap]
      exact ⟨by simpa using hn, rfl⟩
    · rw [if_neg hn] at hmap
      exact Or.inl (hmap ▸ he2)
  · rcases List.mem_append.mp h with h2 | h2
    · exact Or.inl h2
    · right
      rcases List.mem_cons.mp h2 with h3 | h3
      · rw [h3]
        exact ⟨rfl, rfl⟩
      · simp at h3

/-- `setEntry` keeps every existing name present. -/
theorem setEntry_keeps_name {dir : List Entry} {n m : List Char} {sz : Nat}
    (h : ∃ e ∈ dir, e.name = m) : ∃ e ∈ setEntry dir n sz, e.name = m := by
  obtain ⟨e, he, hm⟩ := h
  rw [setEntry]
  split
  · by_cases hn : e.name == n
    · exact ⟨⟨e.name, sz⟩, List.mem_map.mpr ⟨e, he, by rw [if_pos hn]⟩, hm⟩
    · exact ⟨e, List.mem_map.mpr ⟨e, he, by rw [if_neg hn]⟩, hm⟩
  · exact ⟨e, List.mem_append.mpr (Or.inl he), hm⟩

/-- `setEntry` makes the written name present. -/
theorem setEntry_has_name (dir : List Entry) (n : List Char) (sz : Nat) :
    ∃ e ∈ setEntry dir n sz, e.name = n := by
  rw [setEntry]
  split
  · rename_i hany
    obtain ⟨e, he, hn⟩ := List.any_eq_true.mp hany
    exact ⟨⟨e.name, sz⟩, List.mem_map.mpr ⟨e, he, by rw [if_pos hn]⟩, by simpa using hn⟩
  · exact ⟨⟨n, sz⟩, List.mem_append.mpr (Or.inr (by simp)), rfl⟩

/-- Members of `removeEntry` are old entries. -/
theorem mem_removeEntry {dir : List Entry} {n : List Char} {e : Entry}
    (h : e ∈ removeEntry dir n) : e ∈ dir :=
  (List.mem_filter.mp h).1

/-- `removeEntry` keeps entries with a different name. -/
theorem removeEntry_keeps {dir : List Entry} {n : List Char} {e : Entry}
    (he : e ∈ dir) (hne : e.name ≠ n) : e ∈ removeEntry dir n :=
  List.mem_filter.mpr ⟨he, by simpa using hne⟩

/-- A prefix of a concatenation is a prefix of the left part or extends
it into the right part. -/
theorem prefix_append_cases {b x y : List Char} (h : b <+: x ++ y) :
    b <+: x ∨ ∃ p, p <+: y ∧ b = x ++ p ∧ p ≠ [] := by
  obtain ⟨t, ht⟩ := h
  rcases List.append_eq_append_iff.mp ht with ⟨a2, hx, _⟩ | ⟨c2, hb, hy⟩
  · exact Or.inl ⟨a2, hx.symm⟩
  · cases hc2 : c2 with
    | nil =>
      subst hc2
      exact Or.inl (by rw [hb, List.append_nil])
    | cons q qs =>
      right
      exact ⟨c2, ⟨t, hy.symm⟩, hb, by rw [hc2]; simp⟩

/-- A dot-free prefix of `x ++ y` with `y` starting by a dot is a prefix
of `x`. -/
theorem prefix_left_of_dotfree {b x y : List Char} (hb : ∀ c ∈ b, c ≠ '.')
    (hy : y.head? = some '.') (h : b <+: x ++ y) : b <+: x := by
  rcases prefix_append_cases h with h2 | ⟨p, hp, hbeq, hpne⟩
  · exact h2
  · exfalso
    cases p with
    | nil => exact hpne rfl
    | cons p0 pr =>
      obtain ⟨t2, ht2⟩ := hp
      cases y with
      | nil => simp at hy
      | cons y0 yr =>
        have hy0 : y0 = '.' := by rw [List.head?_cons] at hy; injection hy
        rw [List.cons_append] at ht2
        injection ht2 with h01 _
        exact hb p0 (by rw [hbeq]; simp) (h01.trans hy0)

/-- The temporary marker does not occur in `base ++ ext` when the base
is dot-free and the extension is a real one. -/
theorem tmp_not_infix_name (base ext : List Char) (hb : ∀ c ∈ base, c ≠ '.')
    (he : goodExtP ext) : seqInfix tmpLit (base ++ ext) = false := by
  rcases he with ⟨_, hni⟩
  by_contra hc
  rw [Bool.not_eq_false, seqInfix_iff] at hc
  have h2 : tmpLit <:+: ext := infix_right_of_head_notin (by decide) hb hc
  rw [← seqInfix_iff] at h2
  rw [h2] at hni
  exact absurd hni (by decide)

/-- The temporary marker does not occur in a resolved local path with a
real extension. -/
theorem tmp_not_infix_value (base ext : List Char) (hb : ∀ c ∈ base, c ≠ '.')
    (he : goodExtP ext) : seqInfix tmpLit (assetsPrefix ++ (base ++ ext)) = false := by
  by_contra hc
  rw [Bool.not_eq_false, seqInfix_iff] at hc
  have h2 : tmpLit <:+: base ++ ext :=
    infix_right_of_head_notin (by decide) (by decide) hc
  rw [← seqInfix_iff] at h2
  rw [tmp_not_infix_name base ext hb he] at h2
  exact absurd h2 (by decide)

/-- Concatenations of a dot-free base with a dot-led extension are
injective in the base: equal names force equal bases. -/
theorem name_base_inj (b1 x1 b2 x2 : List Char) (hb1 : ∀ c ∈ b1, c ≠ '.')
    (hb2 : ∀ c ∈ b2, c ≠ '.') (hx1 : x1.head? = some '.') (hx2 : x2.head? = some '.')
    (h : b1 ++ x1 = b2 ++ x2) : b1 = b2 ∧ x1 = x2 := by
  have key : ∀ b x : List Char, (∀ c ∈ b, c ≠ '.') → x.head? = some '.' →
      (b ++ x).takeWhile (fun c => c ≠ '.') = b := by
    intro b x hb hx
    rw [takeWhile_append_of_all _ _ (by intro c hc; simpa using hb c hc)]
    cases x with
    | nil => simp at hx
    | cons x0 xr =>
      have hx0 : x0 = '.' := by rw [List.head?_cons] at hx; injection hx
      subst hx0
      simp [List.takeWhile_cons]
  have hbb : b1 = b2 := by
    have e1 := key b1 x1 hb1 hx1
    have e2 := key b2 x2 hb2 hx2
    rw [← e1, ← e2, h]
  refine ⟨hbb, ?_⟩
  subst hbb
  exact List.append_cancel_left h

/-- A successful artifact name never equals a temporary name built from
a dot-free base. -/
theorem success_name_ne_tmpname {b1 ext b2 : List Char} (hb1 : ∀ c ∈ b1, c ≠ '.')
    (hext : goodExtP ext) (hb2 : ∀ c ∈ b2, c ≠ '.') : b1 ++ ext ≠ b2 ++ tmpLit := by
  intro hc
  obtain ⟨hbb, hee⟩ := name_base_inj b1 ext b2 tmpLit hb1 hb2 hext.1 (by decide) hc
  rcases hext with ⟨_, hni⟩
  rw [hee] at hni
  exact absurd hni (by decide)

/-- `afterLastSlash` is the identity on slash-free strings. -/
theorem afterLastSlash_no_slash (l : List Char) (h : ∀ c ∈ l, c ≠ '/') :
    afterLastSlash l = l := by
  rw [afterLastSlash]
  rw [show List.takeWhile (fun c => decide (c ≠ '/')) l.reverse = l.reverse from by
    rw [List.takeWhile_eq_self_iff.mpr]
    intro c hc
    rw [List.mem_reverse] at hc
    simpa using h c hc]
  exact List.reverse_reverse l

/-- `path.extname` of a temporary name over a dot- and slash-free,
non-empty base is `.tmp`. -/
theorem extname_base_tmp (b : List Char) (hb : ∀ c ∈ b, c ≠ '.' ∧ c ≠ '/')
    (hne : b ≠ []) : extname (b ++ tmpLit) = tmpLit := by
  rw [extname]
  rw [afterLastSlash_no_slash _ (by
    intro c hc
    rcases List.mem_append.mp hc with h2 | h2
    · exact (hb c h2).2
    · rw [tmpLit] at h2
      rcases List.mem_cons.mp h2 with h3 | h3
      · subst h3; decide
      · rcases List.mem_cons.mp h3 with h4 | h4
        · subst h4; decide
        · rcases List.mem_cons.mp h4 with h5 | h5
          · subst h5; decide
          · rcases List.mem_cons.mp h5 with h6 | h6
            · subst h6; decide
            · simp at h6)]
  rw [extnameAux]
  have hrev : (b ++ tmpLit).reverse = 'p' :: 'm' :: 't' :: '.' :: b.reverse := by
    rw [List.reverse_append]
    rfl
  rw [hrev]
  have htw : List.takeWhile (fun c => decide (c ≠ '.')) ('p' :: 'm' :: 't' :: '.' :: b.reverse) =
      ['p', 'm', 't'] := rfl
  rw [htw]
  rw [if_neg (by simp), if_neg (by
    simp only [List.length_cons, List.length_reverse, List.length_nil]
    intro hcon
    have hblen : b.length = 0 := by omega
    exact hne (List.length_eq_zero.mp hblen))]
  rfl

/-- Renaming the temporary file of a dot-free base replaces exactly the
final `.tmp`. -/
theorem replaceFirst_tmp (b ext : List Char) (hb : ∀ c ∈ b, c ≠ '.') :
    replaceFirstSeq (b ++ tmpLit) tmpLit ext = b ++ ext := by
  rw [replaceFirstSeq, if_neg (by decide)]
  induction b with
  | nil =>
    rw [List.nil_append, List.nil_append]
    rw [show tmpLit = '.' :: "tmp".data from rfl, replaceFirstAux]
    rw [if_pos (by decide)]
    rw [show List.drop ('.' :: "tmp".data).length ('.' :: "tmp".data) = [] from rfl,
      List.append_nil]
  | cons c b2 ih =>
    rw [List.cons_append, replaceFirstAux.eq_def]
    dsimp only
    rw [if_neg (by
      intro hpre
      rw [List.isPrefixOf_iff_prefix] at hpre
      obtain ⟨t, ht⟩ := hpre
      rw [show tmpLit = '.' :: "tmp".data from rfl, List.cons_append] at ht
      injection ht with h1 _
      exact hb c (by simp) h1.symm)]
    rw [List.cons_append, ih (fun d hd => hb d (by simp [hd]))]

/-- A task base name is never empty. -/
theorem taskBase_ne_nil (slug f id : List Char) : taskBase slug f id ≠ [] := by
  simp [taskBase]

/-- Under the directory invariant, every prefix-scan match for a task's
base name is a non-empty file: pre-existing entries and successful
artifacts are non-empty, and the only possible empty temporary with a
matching name is the task's own, which the scan excludes. -/
theorem filter_members_pos (oracle : Oracle) (bases : List (List Char × List Char))
    (dir0 : List Entry) (hctx : basesCtx oracle bases dir0) (dir : List Entry)
    (hdir : dirInv oracle bases dir0 dir) (b id : List Char)
    (hmem : (b, id) ∈ bases) :
    ∀ e ∈ dir.filter (fun e => b.isPrefixOf e.name && !(e.name == b ++ tmpLit)),
      0 < e.size := by
  obtain ⟨ho, hd, hbOk, hdot⟩ := hctx
  intro e he
  obtain ⟨hedir, hpred⟩ := List.mem_filter.mp he
  rw [Bool.and_eq_true] at hpred
  obtain ⟨hpre, hneq⟩ := hpred
  rw [List.isPrefixOf_iff_prefix] at hpre
  have hneq2 : e.name ≠ b ++ tmpLit := by simpa using hneq
  rcases hdir e hedir with h0 | ⟨b2, id2, ext2, sz2, hm2, hor2, _, hsz2⟩ |
    ⟨b2, id2, lv2, hm2, hor2, hname2, _⟩
  · exact hd e h0
  · rw [hsz2]
    exact (ho id2 ext2 sz2 hor2).2
  · exfalso
    rw [hname2] at hpre hneq2
    have hbdot : ∀ c ∈ b, c ≠ '.' := fun c hc => ((hdot (b, id) hmem).1 c hc).1
    have hble : b <+: b2 := prefix_left_of_dotfree hbdot (by decide) hpre
    have heq := hbOk (b, id) hmem (b2, id2) hm2 hble
    have hb2 : b2 = b := by
      injection heq with h1 _
      exact h1.symm
    exact hneq2 (by rw [hb2])

/-- The download branch preserves the at-most-once invariant and, when
it succeeds, appends a base name that was never successfully downloaded
before. -/
theorem c6_download_step (oracle : Oracle) (bases : List (List Char × List Char))
    (dir0 : List Entry) (hctx : basesCtx oracle bases dir0) (b id v : List Char)
    (hmem : (b, id) ∈ bases) (st : RunState) (hnd : st.successLog.Nodup)
    (hdir : dirInv oracle bases dir0 st.dir) (hslog : slogInv oracle bases st)
    (hnopast : b ∉ st.successLog) :
    c6Inv oracle bases dir0 (mediaFieldDownload oracle id (b ++ tmpLit) v st).2 := by
  have hbprops := hctx.2.2.2 (b, id) hmem
  have hbd : ∀ c ∈ b, c ≠ '.' := fun c hc => (hbprops.1 c hc).1
  rw [mediaFieldDownload]
  cases hfetch : oracle id with
  | fsucc ext sz =>
    dsimp only
    have hext : goodExtP ext := (hctx.1 id ext sz hfetch).1
    have hren : replaceFirstSeq (b ++ tmpLit) (extname (b ++ tmpLit)) ext = b ++ ext := by
      rw [extname_base_tmp b hbprops.1 hbprops.2, replaceFirst_tmp b ext hbd]
    rw [hren, stripLastDot_tmp]
    refine ⟨?_, ?_, ?_⟩
    · rw [List.nodup_append]
      refine ⟨hnd, List.nodup_singleton b, ?_⟩
      intro a ha hab
      rw [List.mem_singleton] at hab
      exact hnopast (hab ▸ ha)
    · intro e he
      rcases mem_setEntry he with h2 | ⟨hn, hs⟩
      · exact hdir e (mem_removeEntry h2)
      · exact Or.inr (Or.inl ⟨b, id, ext, sz, hmem, hfetch, hn, hs⟩)
    · intro b2 hb2
      rcases List.mem_append.mp hb2 with h2 | h2
      · obtain ⟨id2, ext2, sz2, hm2, hor2, e, hedir, hename⟩ := hslog b2 h2
        refine ⟨id2, ext2, sz2, hm2, hor2, ?_⟩
        have hed2 : ∀ c ∈ b2, c ≠ '.' := fun c hc => ((hctx.2.2.2 (b2, id2) hm2).1 c hc).1
        have hext2 : goodExtP ext2 := (hctx.1 id2 ext2 sz2 hor2).1
        have hne : e.name ≠ b ++ tmpLit := by
          rw [hename]
          exact success_name_ne_tmpname hed2 hext2 hbd
        exact setEntry_keeps_name ⟨e, removeEntry_keeps hedir hne, hename⟩
      · rw [List.mem_singleton] at h2
        rw [h2]
        obtain ⟨e, hee, hen⟩ := setEntry_has_name (removeEntry st.dir (b ++ tmpLit)) (b ++ ext) sz
        exact ⟨id, ext, sz, hmem, hfetch, e, hee, hen⟩
  | ffail lv =>
    dsimp only
    refine ⟨hnd, ?_, ?_⟩
    · intro e he
      by_cases hlv : lv = true
      · rw [if_pos hlv] at he
        rcases mem_setEntry he with h2 | ⟨hn, hs⟩
        · exact hdir e h2
        · exact Or.inr (Or.inr ⟨b, id, lv, hmem, hfetch, hn, hs⟩)
      · rw [if_neg hlv] at he
        exact hdir e (mem_removeEntry he)
    · intro b2 hb2
      obtain ⟨id2, ext2, sz2, hm2, hor2, e, hedir, hename⟩ := hslog b2 hb2
      refine ⟨id2, ext2, sz2, hm2, hor2, ?_⟩
      have hed2 : ∀ c ∈ b2, c ≠ '.' := fun c hc => ((hctx.2.2.2 (b2, id2) hm2).1 c hc).1
      have hext2 : goodExtP ext2 := (hctx.1 id2 ext2 sz2 hor2).1
      have hne : e.name ≠ b ++ tmpLit := by
        rw [hename]
        exact success_name_ne_tmpname hed2 hext2 hbd
      by_cases hlv : lv = true
      · rw [if_pos hlv]
        exact setEntry_keeps_name ⟨e, hedir, hename⟩
      · rw [if_neg hlv]
        exact ⟨e, removeEntry_keeps hedir hne, hename⟩

/-- One field step preserves the at-most-once invariant. -/
theorem c6_field_step (oracle : Oracle) (bases : List (List Char × List Char))
    (dir0 : List Entry) (hctx : basesCtx oracle bases dir0)
    (pn f v : List Char)
    (hmem : ∀ id, extractDriveFileIdStr v = some id →
      (taskBase (safeName pn) f id, id) ∈ bases)
    (st : RunState) (hinv : c6Inv oracle bases dir0 st) :
    c6Inv oracle bases dir0 (mediaFieldStep oracle pn f v st).2 := by
  rw [mediaFieldStep]
  by_cases hv : v = []
  · rw [if_pos hv]
    exact hinv
  rw [if_neg hv]
  cases hid : extractDriveFileIdStr v with
  | none => exact hinv
  | some id =>
    dsimp only
    have hmem2 := hmem id hid
    have hfn : createSafeFilename pn f v tmpLit = taskBase (safeName pn) f id ++ tmpLit :=
      createSafeFilename_eq pn f v tmpLit id hid
    simp only [hfn, stripLastDot_tmp]
    obtain ⟨hnd, hdir, hslog⟩ := hinv
    have hpos := filter_members_pos oracle bases dir0 hctx st.dir hdir
      (taskBase (safeName pn) f id) id hmem2
    cases hx : st.dir.filter (fun e =>
        (taskBase (safeName pn) f id).isPrefixOf e.name &&
          !(e.name == taskBase (safeName pn) f id ++ tmpLit)) with
    | cons e0 r =>
      dsimp only
      rw [if_pos (hpos e0 (by rw [hx]; simp))]
      exact ⟨hnd, hdir, hslog⟩
    | nil =>
      dsimp only
      rw [mediaFieldStep2]
      have hnopast : taskBase (safeName pn) f id ∉ st.successLog := by
        intro hbin
        obtain ⟨id2, ext2, sz2, hm2, hor2, e, hedir, hename⟩ := hslog _ hbin
        have hbd : ∀ c ∈ taskBase (safeName pn) f id, c ≠ '.' :=
          fun c hc => ((hctx.2.2.2 _ hmem2).1 c hc).1
        have hext2 : goodExtP ext2 := (hctx.1 id2 ext2 sz2 hor2).1
        have hepred : e ∈ st.dir.filter (fun e =>
            (taskBase (safeName pn) f id).isPrefixOf e.name &&
              !(e.name == taskBase (safeName pn) f id ++ tmpLit)) := by
          refine List.mem_filter.mpr ⟨hedir, ?_⟩
          rw [Bool.and_eq_true]
          refine ⟨?_, ?_⟩
          · rw [List.isPrefixOf_iff_prefix, hename]
            exact List.prefix_append _ _
          · have : e.name ≠ taskBase (safeName pn) f id ++ tmpLit := by
              rw [hename]
              exact success_name_ne_tmpname hbd hext2 hbd
            simpa using this
        rw [hx] at hepred
        simp at hepred
      cases hl : lookupEntry st.dir (taskBase (safeName pn) f id ++ tmpLit) with
      | some e =>
        dsimp only
        by_cases hsz : e.size > 0
        · rw [if_pos hsz]
          exact ⟨hnd, hdir, hslog⟩
        · rw [if_neg hsz]
          exact c6_download_step oracle bases dir0 hctx _ id v hmem2 st hnd hdir hslog hnopast
      | none =>
        dsimp only
        exact c6_download_step oracle bases dir0 hctx _ id v hmem2 st hnd hdir hslog hnopast

/-- Processing a record's fields preserves the invariant. -/
theorem c6_fields (oracle : Oracle) (bases : List (List Char × List Char))
    (dir0 : List Entry) (hctx : basesCtx oracle bases dir0) (pn : List Char)
    (pairs : List (List Char × List Char))
    (hmem : ∀ fv ∈ pairs, ∀ id, extractDriveFileIdStr fv.2 = some id →
      (taskBase (safeName pn) fv.1 id, id) ∈ bases)
    (st : RunState) (hinv : c6Inv oracle bases dir0 st) :
    c6Inv oracle bases dir0 (processFields oracle pn pairs st).2 := by
  induction pairs generalizing st with
  | nil => exact hinv
  | cons fv rest ih =>
    obtain ⟨f, v⟩ := fv
    rw [processFields]
    dsimp only
    exact ih (fun fv2 h2 id hid => hmem fv2 (by simp [h2]) id hid) _
      (c6_field_step oracle bases dir0 hctx pn f v
        (fun id hid => hmem (f, v) (by simp) id hid) st hinv)

/-- Processing the record list preserves the invariant. -/
theorem c6_projects (oracle : Oracle) (bases : List (List Char × List Char))
    (dir0 : List Entry) (hctx : basesCtx oracle bases dir0) (ps2 : List Project)
    (hmem : ∀ p ∈ ps2, ∀ fv ∈ p.media, ∀ id, extractDriveFileIdStr fv.2 = some id →
      (taskBase (safeName (usedName p)) fv.1 id, id) ∈ bases)
    (st : RunState) (hinv : c6Inv oracle bases dir0 st) :
    c6Inv oracle bases dir0 (processProjects oracle ps2 st).2 := by
  induction ps2 generalizing st with
  | nil => exact hinv
  | cons p rest ih =>
    rw [processProjects]
    dsimp only
    refine ih (fun q hq => hmem q (by simp [hq])) _ ?_
    rw [processProject]
    dsimp only
    exact c6_fields oracle bases dir0 hctx (usedName p) p.media
      (fun fv hfv id hid => hmem p (by simp) fv hfv id hid) st hinv

/-- Tasks of the input records are among `allTasks`. -/
theorem task_mem_allTasks (ps : List Project) (p : Project) (hp : p ∈ ps)
    (fv : List Char × List Char) (hfv : fv ∈ p.media) (id : List Char)
    (hid : extractDriveFileIdStr fv.2 = some id) :
    (taskBase (safeName (usedName p)) fv.1 id, id) ∈ allTasks ps := by
  rw [allTasks]
  refine List.mem_flatMap.mpr ⟨p, hp, ?_⟩
  rw [projectTasks]
  exact List.mem_filterMap.mpr ⟨fv, hfv, by rw [hid]; rfl⟩

/-- Conversely, every member of `allTasks` comes from a record field. -/
theorem allTasks_src (ps : List Project) (t : List Char × List Char)
    (ht : t ∈ allTasks ps) :
    ∃ p ∈ ps, ∃ fv ∈ p.media, ∃ id, extractDriveFileIdStr fv.2 = some id ∧
      t = (taskBase (safeName (usedName p)) fv.1 id, id) := by
  rw [allTasks] at ht
  obtain ⟨p, hp, ht2⟩ := List.mem_flatMap.mp ht
  rw [projectTasks] at ht2
  obtain ⟨fv, hfv, hmap⟩ := List.mem_filterMap.mp ht2
  cases hid : extractDriveFileIdStr fv.2 with
  | none => rw [hid] at hmap; simp at hmap
  | some id =>
    rw [hid] at hmap
    simp only [Option.map_some'] at hmap
    injection hmap with hmap2
    exact ⟨p, hp, fv, hfv, id, hid, hmap2.symm⟩

/-- C6 (amended): within one run, at most one successful download
happens per cache key — the (record slug, field name, identifier)
triple whose base name keys the cache: the success log never repeats a
base name.  The claim's stronger across-field reading is false (see the
counterexample): the deduplication key includes the field name, so the
same identifier appearing in two fields is fetched twice. -/
theorem c6_at_most_once_per_key (oracle : Oracle) (ps : List Project) (dir0 : List Entry)
    (ho : oracleOk oracle) (hd : ∀ e ∈ dir0, 0 < e.size)
    (hb : basesOk ps) (hfo : fieldsOk ps) :
    (runPipeline oracle ps dir0).2.successLog.Nodup := by
  have hctx : basesCtx oracle (allTasks ps) dir0 := by
    refine ⟨ho, hd, hb, ?_⟩
    intro t ht
    obtain ⟨p, hp, fv, hfv, id, hid, hteq⟩ := allTasks_src ps t ht
    subst hteq
    exact ⟨taskBase_no_dot_slash (usedName p) fv.1 id (hfo p hp fv hfv)
      (extract_sound _ _ hid).2, taskBase_ne_nil _ _ _⟩
  have hinv0 : c6Inv oracle (allTasks ps) dir0 (initialRunState dir0) :=
    ⟨List.nodup_nil, fun e he => Or.inl he, fun b hb2 => by simp [initialRunState] at hb2⟩
  exact (c6_projects oracle (allTasks ps) dir0 hctx ps
    (fun p hp fv hfv id hid => task_mem_allTasks ps p hp fv hfv id hid)
    (initialRunState dir0) hinv0).1

/-- Witness for C6 on a concrete run. -/
theorem c6_at_most_once_per_key_witness :
    (runPipeline okOracle [sampleProject1] []).2.successLog.Nodup :=
  c6_at_most_once_per_key okOracle [sampleProject1] []
    (by
      intro id ext sz h
      injection h with h1 h2
      subst h1
      subst h2
      exact ⟨⟨by decide, by decide⟩, by omega⟩)
    (by simp)
    (by unfold basesOk; decide)
    (by unfold fieldsOk fieldNameOk; decide)

/-- Counterexample to C6 as stated: the same identifier `X` appearing in
two different media fields of one record is fetched twice — the
deduplication key is the (slug, field, identifier) triple, not the
identifier. -/
theorem c6_counterexample :
    (runPipeline okOracle [sampleProject2] []).2.fetchLog = ["X".data, "X".data] ∧
    (runPipeline okOracle [sampleProject2] []).2.downloadCount = 2 := by
  decide

/-- Counterexample to C1 as stated: when an asset's fetch fails in the
first run (here every fetch fails), the second run over the same
directory and input performs a download attempt again instead of
resolving every field as a cache hit. -/
theorem c1_counterexample :
    (runPipeline failOracle [sampleProject1]
      (runPipeline failOracle [sampleProject1] []).2.dir).2.fetchLog = ["X".data] ∧
    (runPipeline failOracle [sampleProject1]
      (runPipeline failOracle [sampleProject1] []).2.dir).2.skipCount = 0 := by
  decide

/-- Counterexample to C2 as stated: a stale, non-empty `.tmp` file left
in the assets directory is treated as a cache hit, and the final
persisted record points at a path carrying the temporary placeholder
extension even though no fetch failed during the run. -/
theorem c2_counterexample :
    (runPipeline okOracle [sampleProject1] staleTmpDir).1 =
      [⟨"p".data, [("thumbnailImage".data,
        "/assets/projects/p-thumbnailImage-X.tmp".data)]⟩] ∧
    seqInfix tmpLit "/assets/projects/p-thumbnailImage-X.tmp".data = true ∧
    (runPipeline okOracle [sampleProject1] staleTmpDir).2.errorCount = 0 := by
  decide

/-! ### The all-success idempotence argument -/

/-- `find?` is the head of `filter`. -/
theorem find?_eq_head?_filter {α : Type} (p : α → Bool) (l : List α) :
    l.find? p = (l.filter p).head? := by
  induction l with
  | nil => rfl
  | cons a rest ih =>
    rw [List.find?_cons, List.filter_cons]
    by_cases h : p a
    · rw [if_pos h, h]
      rfl
    · rw [if_neg h]
      rw [show p a = false from by simpa using h]
      exact ih

/-- The head of a non-empty left part survives appending. -/
theorem head?_append_left {α : Type} (l1 l2 : List α) (h : l1 ≠ []) :
    (l1 ++ l2).head? = l1.head? := by
  cases l1 with
  | nil => exact absurd rfl h
  | cons a r => rfl

/-- `fieldDone` is stable under growing the directory on the right. -/
theorem fieldDone_append (d Δ : List Entry) (pn f v v2 : List Char)
    (h : fieldDone d pn f v v2) : fieldDone (d ++ Δ) pn f v v2 := by
  rw [fieldDone] at h ⊢
  cases hid : extractDriveFileIdStr v with
  | none => rw [hid] at h; exact h
  | some id =>
    rw [hid] at h
    dsimp only at h ⊢
    obtain ⟨hne, hval⟩ := h
    rw [List.filter_append]
    refine ⟨by simp [hne], ?_⟩
    rcases hval with h2 | ⟨e0, r, hfil, h2⟩
    · exact Or.inl h2
    · exact Or.inr ⟨e0, r ++ List.filter _ Δ, by rw [hfil]; rfl, h2⟩

/-- Removing an absent name is a no-op. -/
theorem removeEntry_noop (dir : List Entry) (n : List Char)
    (h : ∀ e ∈ dir, e.name ≠ n) : removeEntry dir n = dir := by
  rw [removeEntry]
  rw [List.filter_eq_self.mpr]
  intro e he
  simpa using h e he

/-- Writing an absent name appends. -/
theorem setEntry_append (dir : List Entry) (n : List Char) (sz : Nat)
    (h : ∀ e ∈ dir, e.name ≠ n) : setEntry dir n sz = dir ++ [⟨n, sz⟩] := by
  rw [setEntry, if_neg]
  intro hany
  obtain ⟨e, he, hn⟩ := List.any_eq_true.mp hany
  exact h e he (by simpa using hn)

/-- On a pure directory, the scan that excludes the temporary name
equals the plain prefix scan: no pure entry carries the temporary
name. -/
theorem filterExcl_eq (d : List Entry) (hp : dirPure d) (b : List Char)
    (hb : ∀ c ∈ b, c ≠ '.') :
    d.filter (fun e => b.isPrefixOf e.name && !(e.name == b ++ tmpLit)) =
      d.filter (fun e => b.isPrefixOf e.name) := by
  refine List.filter_congr ?_
  intro e he
  obtain ⟨_, b2, ext2, hname, hb2, _, hext2⟩ := hp e he
  have hne : e.name ≠ b ++ tmpLit := by
    rw [hname]
    exact success_name_ne_tmpname (fun c hc => (hb2 c hc).1) hext2 hb
  rw [show (e.name == b ++ tmpLit) = false from by simpa using hne]
  simp

/-- No pure entry is named like a temporary file. -/
theorem lookup_tmp_none (d : List Entry) (hp : dirPure d) (b : List Char)
    (hb : ∀ c ∈ b, c ≠ '.') : lookupEntry d (b ++ tmpLit) = none := by
  rw [lookupEntry, List.find?_eq_none]
  intro e he
  obtain ⟨_, b2, ext2, hname, hb2, _, hext2⟩ := hp e he
  have hne : e.name ≠ b ++ tmpLit := by
    rw [hname]
    exact success_name_ne_tmpname (fun c hc => (hb2 c hc).1) hext2 hb
  simpa using hne

/-- One field step of an all-success run over a pure directory: the
directory only grows on the right, stays pure, and the field's value
satisfies `fieldDone` against the grown directory. -/
theorem c1_field_step (oracle : Oracle) (ho : oracleOk oracle) (hs : allSucc oracle)
    (pn f v : List Char) (hf : fieldNameOk f) (st : RunState) (hp : dirPure st.dir) :
    ∃ Δ, (mediaFieldStep oracle pn f v st).2.dir = st.dir ++ Δ ∧
      dirPure (mediaFieldStep oracle pn f v st).2.dir ∧
      fieldDone (mediaFieldStep oracle pn f v st).2.dir pn f v
        (mediaFieldStep oracle pn f v st).1 := by
  rw [mediaFieldStep]
  by_cases hv : v = []
  · rw [if_pos hv]
    refine ⟨[], by simp, by simpa using hp, ?_⟩
    rw [fieldDone]
    rw [show extractDriveFileIdStr v = none from by rw [hv]; rfl]
  rw [if_neg hv]
  cases hid : extractDriveFileIdStr v with
  | none =>
    refine ⟨[], by simp, by simpa using hp, ?_⟩
    rw [fieldDone, hid]
  | some id =>
    dsimp only
    have hfn : createSafeFilename pn f v tmpLit = taskBase (safeName pn) f id ++ tmpLit :=
      createSafeFilename_eq pn f v tmpLit id hid
    have hbprops : ∀ c ∈ taskBase (safeName pn) f id, c ≠ '.' ∧ c ≠ '/' :=
      taskBase_no_dot_slash pn f id hf (extract_sound _ _ hid).2
    have hbd : ∀ c ∈ taskBase (safeName pn) f id, c ≠ '.' := fun c hc => (hbprops c hc).1
    simp only [hfn, stripLastDot_tmp]
    rw [filterExcl_eq st.dir hp _ hbd]
    cases hx : st.dir.filter (fun e => (taskBase (safeName pn) f id).isPrefixOf e.name) with
    | cons e0 r =>
      dsimp only
      rw [if_pos (hp e0 (List.mem_filter.mp (by rw [hx]; simp)).1).1]
      refine ⟨[], by simp, by simpa using hp, ?_⟩
      rw [fieldDone, hid]
      exact ⟨by rw [hx]; simp, Or.inr ⟨e0, r, hx, rfl⟩⟩
    | nil =>
      dsimp only
      rw [mediaFieldStep2, lookup_tmp_none st.dir hp _ hbd]
      dsimp only
      rw [mediaFieldDownload]
      obtain ⟨ext, sz, hor⟩ := hs id
      rw [hor]
      dsimp only
      obtain ⟨hext, hsz⟩ := ho id ext sz hor
      have hren : replaceFirstSeq (taskBase (safeName pn) f id ++ tmpLit)
          (extname (taskBase (safeName pn) f id ++ tmpLit)) ext =
          taskBase (safeName pn) f id ++ ext := by
        rw [extname_base_tmp _ hbprops (taskBase_ne_nil _ _ _), replaceFirst_tmp _ _ hbd]
      rw [hren]
      have hnotmp : ∀ e ∈ st.dir, e.name ≠ taskBase (safeName pn) f id ++ tmpLit := by
        intro e he
        obtain ⟨_, b2, ext2, hname, hb2, _, hext2⟩ := hp e he
        rw [hname]
        exact success_name_ne_tmpname (fun c hc => (hb2 c hc).1) hext2 hbd
      have hnoext : ∀ e ∈ st.dir, e.name ≠ taskBase (safeName pn) f id ++ ext := by
        intro e he hc
        have hmem : e ∈ st.dir.filter
            (fun e => (taskBase (safeName pn) f id).isPrefixOf e.name) := by
          refine List.mem_filter.mpr ⟨he, ?_⟩
          rw [List.isPrefixOf_iff_prefix, hc]
          exact List.prefix_append _ _
        rw [hx] at hmem
        simp at hmem
      rw [removeEntry_noop st.dir _ hnotmp, setEntry_append st.dir _ sz hnoext]
      refine ⟨[⟨taskBase (safeName pn) f id ++ ext, sz⟩], rfl, ?_, ?_⟩
      · intro e he
        rcases List.mem_append.mp he with h2 | h2
        · exact hp e h2
        · rw [List.mem_singleton] at h2
          subst h2
          exact ⟨hsz, taskBase (safeName pn) f id, ext, rfl, hbprops,
            taskBase_ne_nil _ _ _, hext⟩
      · rw [fieldDone, hid]
        constructor
        · rw [List.filter_append, hx]
          simp [List.isPrefixOf_iff_prefix]
        · exact Or.inl rfl

/-- Extract a witness on the right of a `Forall₂`. -/
theorem forall₂_mem_left {α β : Type} {R : α → β → Prop} {l1 : List α} {l2 : List β}
    (h : List.Forall₂ R l1 l2) {a : α} (ha : a ∈ l1) : ∃ b, R a b := by
  induction h with
  | nil => simp at ha
  | cons hR _ ih =>
    rcases List.mem_cons.mp ha with h2 | h2
    · exact ⟨_, h2 ▸ hR⟩
    · exact ih h2

/-- Processing the fields of one record in the all-success setting. -/
theorem c1_fields (oracle : Oracle) (ho : oracleOk oracle) (hs : allSucc oracle)
    (pn : List Char) (pairs : List (List Char × List Char))
    (hf : ∀ fv ∈ pairs, fieldNameOk fv.1) (st : RunState) (hp : dirPure st.dir) :
    ∃ Δ, (processFields oracle pn pairs st).2.dir = st.dir ++ Δ ∧
      dirPure (processFields oracle pn pairs st).2.dir ∧
      List.Forall₂ (fun fv fv2 => fv2.1 = fv.1 ∧
        fieldDone (processFields oracle pn pairs st).2.dir pn fv.1 fv.2 fv2.2)
        pairs (processFields oracle pn pairs st).1 := by
  induction pairs generalizing st with
  | nil => exact ⟨[], by simp [processFields], by simpa [processFields] using hp, List.Forall₂.nil⟩
  | cons fv rest ih =>
    obtain ⟨f, v⟩ := fv
    rw [processFields]
    dsimp only
    obtain ⟨d1, hd1, hp1, hfd1⟩ := c1_field_step oracle ho hs pn f v (hf (f, v) (by simp)) st hp
    obtain ⟨d2, hd2, hp2, hfd2⟩ := ih (fun fv2 h2 => hf fv2 (by simp [h2]))
      (mediaFieldStep oracle pn f v st).2 hp1
    refine ⟨d1 ++ d2, by rw [hd2, hd1, List.append_assoc], hp2, ?_⟩
    refine List.Forall₂.cons ⟨rfl, ?_⟩ hfd2
    rw [hd2]
    exact fieldDone_append _ d2 pn f v _ hfd1

/-- Processing the record list in the all-success setting. -/
theorem c1_projects (oracle : Oracle) (ho : oracleOk oracle) (hs : allSucc oracle)
    (ps2 : List Project) (hf : ∀ p ∈ ps2, ∀ fv ∈ p.media, fieldNameOk fv.1)
    (st : RunState) (hp : dirPure st.dir) :
    ∃ Δ, (processProjects oracle ps2 st).2.dir = st.dir ++ Δ ∧
      dirPure (processProjects oracle ps2 st).2.dir ∧
      List.Forall₂ (fun p p2 => p2.projectName = p.projectName ∧
        List.Forall₂ (fun fv fv2 => fv2.1 = fv.1 ∧
          fieldDone (processProjects oracle ps2 st).2.dir (usedName p) fv.1 fv.2 fv2.2)
          p.media p2.media)
        ps2 (processProjects oracle ps2 st).1 := by
  induction ps2 generalizing st with
  | nil => exact ⟨[], by simp [processProjects], by simpa [processProjects] using hp, List.Forall₂.nil⟩
  | cons p rest ih =>
    rw [processProjects, processProject]
    dsimp only
    obtain ⟨d1, hd1, hp1, hfd1⟩ := c1_fields oracle ho hs (usedName p) p.media
      (fun fv hfv => hf p (by simp) fv hfv) st hp
    obtain ⟨d2, hd2, hp2, hfd2⟩ := ih (fun q hq fv hfv => hf q (by simp [hq]) fv hfv)
      (processFields oracle (usedName p) p.media st).2 hp1
    refine ⟨d1 ++ d2, by rw [hd2, hd1, List.append_assoc], hp2, ?_⟩
    refine List.Forall₂.cons ⟨rfl, ?_⟩ (hfd2.imp ?_)
    · refine hfd1.imp ?_
      intro fv fv2 hone
      refine ⟨hone.1, ?_⟩
      rw [hd2]
      exact fieldDone_append _ d2 (usedName p) fv.1 fv.2 fv2.2 hone.2
    · intro q q2 hq
      exact hq

/-- Reconciliation computes the canonical value of every processed
field. -/
theorem sync_canonical (d : List Entry) (hpd : dirPure d) (pn f v v2 : List Char)
    (hf : fieldNameOk f) (h : fieldDone d pn f v v2) :
    syncValue d v2 = canonicalValue d pn f v := by
  rw [fieldDone] at h
  rw [canonicalValue]
  cases hid : extractDriveFileIdStr v with
  | none =>
    rw [hid] at h
    rw [h]
  | some id =>
    rw [hid] at h
    dsimp only at h ⊢
    obtain ⟨hne, hval⟩ := h
    have hbases := taskBase_no_dot_slash pn f id hf (extract_sound _ _ hid).2
    rcases hval with h2 | ⟨e0, r, hfil, h2⟩
    · subst h2
      rw [syncValue]
      rw [if_pos (show seqInfix tmpLit
          (assetsPrefix ++ (taskBase (safeName pn) f id ++ tmpLit)) = true from by
        rw [seqInfix_iff]
        exact ⟨assetsPrefix ++ taskBase (safeName pn) f id, [], by simp⟩)]
      rw [basenameTmp_eq _ (fun c hc => (hbases c hc).2)]
      rw [find?_eq_head?_filter]
      cases hfil2 : d.filter (fun e => (taskBase (safeName pn) f id).isPrefixOf e.name) with
      | nil => exact absurd hfil2 hne
      | cons e0 r => rfl
    · subst h2
      have he0d : e0 ∈ d := (List.mem_filter.mp (by rw [hfil]; simp)).1
      obtain ⟨_, b2, ext2, hname, hb2, _, hext2⟩ := hpd e0 he0d
      rw [syncValue]
      rw [if_neg (by
        rw [hname, tmp_not_infix_value b2 ext2 (fun c hc => (hb2 c hc).1) hext2]
        simp)]
      rw [find?_eq_head?_filter, hfil]
      rfl

/-- Reconciliation of one record's processed fields. -/
theorem syncFields_canonical (d : List Entry) (hpd : dirPure d) (pn : List Char)
    (media out : List (List Char × List Char))
    (hf : ∀ fv ∈ media, fieldNameOk fv.1)
    (hrel : List.Forall₂ (fun fv fv2 => fv2.1 = fv.1 ∧
      fieldDone d pn fv.1 fv.2 fv2.2) media out) :
    out.map (fun fv => (fv.1, syncValue d fv.2)) =
      media.map (fun fv => (fv.1, canonicalValue d pn fv.1 fv.2)) := by
  induction hrel with
  | nil => rfl
  | cons hR hrest ih =>
    rename_i fv fv2 media2 out2
    rw [List.map_cons, List.map_cons]
    rw [ih (fun q hq => hf q (by simp [hq]))]
    obtain ⟨h1, h2⟩ := hR
    rw [h1, sync_canonical d hpd pn fv.1 fv.2 fv2.2 (hf fv (by simp)) h2]

/-- Reconciliation of the whole processed record list. -/
theorem syncProjects_canonical (d : List Entry) (hpd : dirPure d)
    (ps2 out : List Project) (hf : ∀ p ∈ ps2, ∀ fv ∈ p.media, fieldNameOk fv.1)
    (hrel : List.Forall₂ (fun p p2 => p2.projectName = p.projectName ∧
      List.Forall₂ (fun fv fv2 => fv2.1 = fv.1 ∧
        fieldDone d (usedName p) fv.1 fv.2 fv2.2) p.media p2.media) ps2 out) :
    syncFilenames d out = canonProjects d ps2 := by
  induction hrel with
  | nil => rfl
  | cons hR hrest ih =>
    rename_i p p2 ps3 out2
    rw [syncFilenames, List.map_cons, canonProjects, List.map_cons]
    rw [show List.map (syncProject d) out2 = syncFilenames d out2 from rfl]
    rw [show List.map (canonProject d) ps3 = canonProjects d ps3 from rfl]
    rw [ih (fun q hq fv hfv => hf q (by simp [hq]) fv hfv)]
    obtain ⟨h1, h2⟩ := hR
    have hm := syncFields_canonical d hpd (usedName p) p.media p2.media
      (fun fv hfv => hf p (by simp) fv hfv) h2
    rw [syncProject, canonProject]
    have hn : usedName p2 = usedName p := by rw [usedName, usedName, h1]
    rw [show p2.media.map (fun fv => (fv.1, syncValue d fv.2)) =
      p.media.map (fun fv => (fv.1, canonicalValue d (usedName p) fv.1 fv.2)) from hm]
    rw [show ({ p2 with media := p.media.map (fun fv =>
        (fv.1, canonicalValue d (usedName p) fv.1 fv.2)) } : Project) =
      { projectName := p2.projectName, media := p.media.map (fun fv =>
        (fv.1, canonicalValue d (usedName p) fv.1 fv.2)) } from rfl]
    rw [h1]

/-- One field step of a second run over a settled pure directory: a
cache hit (or skip) that leaves the state unchanged apart from the skip
counter, and whose reconciled value is the canonical one. -/
theorem c1_field_hit (oracle : Oracle) (pn f v : List Char) (st : RunState)
    (hp : dirPure st.dir) (hf : fieldNameOk f)
    (hsat : ∀ id, extractDriveFileIdStr v = some id →
      st.dir.filter (fun e => (taskBase (safeName pn) f id).isPrefixOf e.name) ≠ []) :
    (mediaFieldStep oracle pn f v st).2.dir = st.dir ∧
    (mediaFieldStep oracle pn f v st).2.fetchLog = st.fetchLog ∧
    (mediaFieldStep oracle pn f v st).2.downloadCount = st.downloadCount ∧
    (mediaFieldStep oracle pn f v st).2.errorCount = st.errorCount ∧
    syncValue st.dir (mediaFieldStep oracle pn f v st).1 = canonicalValue st.dir pn f v := by
  rw [mediaFieldStep]
  by_cases hv : v = []
  · rw [if_pos hv]
    refine ⟨rfl, rfl, rfl, rfl, ?_⟩
    rw [canonicalValue, show extractDriveFileIdStr v = none from by rw [hv]; rfl]
  rw [if_neg hv]
  cases hid : extractDriveFileIdStr v with
  | none =>
    refine ⟨rfl, rfl, rfl, rfl, ?_⟩
    rw [canonicalValue, hid]
  | some id =>
    dsimp only
    have hfn : createSafeFilename pn f v tmpLit = taskBase (safeName pn) f id ++ tmpLit :=
      createSafeFilename_eq pn f v tmpLit id hid
    have hbd : ∀ c ∈ taskBase (safeName pn) f id, c ≠ '.' :=
      fun c hc => (taskBase_no_dot_slash pn f id hf (extract_sound _ _ hid).2 c hc).1
    simp only [hfn, stripLastDot_tmp]
    rw [filterExcl_eq st.dir hp _ hbd]
    cases hx : st.dir.filter (fun e => (taskBase (safeName pn) f id).isPrefixOf e.name) with
    | nil => exact absurd hx (hsat id hid)
    | cons e0 r =>
      dsimp only
      rw [if_pos (hp e0 (List.mem_filter.mp (by rw [hx]; simp)).1).1]
      refine ⟨rfl, rfl, rfl, rfl, ?_⟩
      refine sync_canonical st.dir hp pn f v _ hf ?_
      rw [fieldDone, hid]
      exact ⟨by rw [hx]; simp, Or.inr ⟨e0, r, hx, rfl⟩⟩

/-- One record's fields processed over a settled pure directory: the
state is unchanged (no fetches, downloads or errors) and the reconciled
output fields are canonical. -/
theorem c1_fields_hit (oracle : Oracle) (pn : List Char)
    (pairs : List (List Char × List Char))
    (hf : ∀ fv ∈ pairs, fieldNameOk fv.1) (st : RunState) (hp : dirPure st.dir)
    (hsat2 : ∀ fv ∈ pairs, ∀ id, extractDriveFileIdStr fv.2 = some id →
      st.dir.filter (fun e => (taskBase (safeName pn) fv.1 id).isPrefixOf e.name) ≠ []) :
    (processFields oracle pn pairs st).2.dir = st.dir ∧
    (processFields oracle pn pairs st).2.fetchLog = st.fetchLog ∧
    (processFields oracle pn pairs st).2.downloadCount = st.downloadCount ∧
    (processFields oracle pn pairs st).2.errorCount = st.errorCount ∧
    (processFields oracle pn pairs st).1.map (fun fv => (fv.1, syncValue st.dir fv.2)) =
      pairs.map (fun fv => (fv.1, canonicalValue st.dir pn fv.1 fv.2)) := by
  induction pairs generalizing st with
  | nil => simp [processFields]
  | cons fv rest ih =>
    obtain ⟨f, v⟩ := fv
    rw [processFields]
    dsimp only
    obtain ⟨h1, h2, h3, h4, h5⟩ := c1_field_hit oracle pn f v st hp (hf (f, v) (by simp))
      (fun id hid => hsat2 (f, v) (by simp) id hid)
    obtain ⟨g1, g2, g3, g4, g5⟩ := ih (fun q hq => hf q (by simp [hq]))
      (mediaFieldStep oracle pn f v st).2 (by rw [h1]; exact hp)
      (fun q hq id hid => by rw [h1]; exact hsat2 q (by simp [hq]) id hid)
    rw [h1] at g1 g5
    refine ⟨g1, by rw [g2, h2], by rw [g3, h3], by rw [g4, h4], ?_⟩
    rw [List.map_cons, List.map_cons, g5, h5]

/-- The whole record list processed over a settled pure directory: the
state is unchanged and the reconciled output is the canonical record
list. -/
theorem c1_projects_hit (oracle : Oracle) (ps2 : List Project)
    (hf : ∀ p ∈ ps2, ∀ fv ∈ p.media, fieldNameOk fv.1)
    (st : RunState) (hp : dirPure st.dir)
    (hsat : ∀ p ∈ ps2, ∀ fv ∈ p.media, ∀ id, extractDriveFileIdStr fv.2 = some id →
      st.dir.filter (fun e => (taskBase (safeName (usedName p)) fv.1 id).isPrefixOf e.name) ≠ []) :
    (processProjects oracle ps2 st).2.dir = st.dir ∧
    (processProjects oracle ps2 st).2.fetchLog = st.fetchLog ∧
    (processProjects oracle ps2 st).2.downloadCount = st.downloadCount ∧
    (processProjects oracle ps2 st).2.errorCount = st.errorCount ∧
    syncFilenames st.dir (processProjects oracle ps2 st).1 = canonProjects st.dir ps2 := by
  induction ps2 generalizing st with
  | nil => simp [processProjects, syncFilenames, canonProjects]
  | cons p rest ih =>
    rw [processProjects, processProject]
    dsimp only
    obtain ⟨h1, h2, h3, h4, h5⟩ := c1_fields_hit oracle (usedName p) p.media
      (fun fv hfv => hf p (by simp) fv hfv) st hp
      (fun fv hfv id hid => hsat p (by simp) fv hfv id hid)
    obtain ⟨g1, g2, g3, g4, g5⟩ := ih (fun q hq fv hfv => hf q (by simp [hq]) fv hfv)
      (processFields oracle (usedName p) p.media st).2 (by rw [h1]; exact hp)
      (fun q hq fv hfv id hid => by rw [h1]; exact hsat q (by simp [hq]) fv hfv id hid)
    rw [h1] at g1 g5
    refine ⟨g1, by rw [g2, h2], by rw [g3, h3], by rw [g4, h4], ?_⟩
    rw [syncFilenames, List.map_cons]
    rw [show List.map (syncProject st.dir)
      (processProjects oracle rest (processFields oracle (usedName p) p.media st).2).1 =
      syncFilenames st.dir
        (processProjects oracle rest (processFields oracle (usedName p) p.media st).2).1 from rfl]
    rw [g5, show canonProjects st.dir (p :: rest) =
      canonProject st.dir p :: canonProjects st.dir rest from rfl]
    congr 1
    rw [syncProject, canonProject]
    dsimp only
    rw [h5]

/-- C1: after a first run from an empty assets directory in which every
fetch succeeds (with a positive body size and a real extension) and
every field name is sane, a second run over the first run's directory
and the same records performs no fetch at all (empty fetch log, zero
downloads, zero errors), leaves the directory untouched, and persists
byte-identical record output. -/
theorem c1_second_run_idempotent (oracle : Oracle) (ps : List Project)
    (ho : oracleOk oracle) (hs : allSucc oracle) (hfo : fieldsOk ps) :
    (runPipeline oracle ps (runPipeline oracle ps []).2.dir).1 = (runPipeline oracle ps []).1 ∧
    (runPipeline oracle ps (runPipeline oracle ps []).2.dir).2.dir =
      (runPipeline oracle ps []).2.dir ∧
    (runPipeline oracle ps (runPipeline oracle ps []).2.dir).2.fetchLog = [] ∧
    (runPipeline oracle ps (runPipeline oracle ps []).2.dir).2.downloadCount = 0 ∧
    (runPipeline oracle ps (runPipeline oracle ps []).2.dir).2.errorCount = 0 := by
  obtain ⟨Δ, hd1, hp1, hrel1⟩ := c1_projects oracle ho hs ps hfo (initialRunState [])
    (by intro e he; simp [initialRunState] at he)
  have hout1 : (runPipeline oracle ps []).1 =
      canonProjects (processProjects oracle ps (initialRunState [])).2.dir ps :=
    syncProjects_canonical _ hp1 ps _ hfo hrel1
  have hsat : ∀ p ∈ ps, ∀ fv ∈ p.media, ∀ id, extractDriveFileIdStr fv.2 = some id →
      (processProjects oracle ps (initialRunState [])).2.dir.filter
        (fun e => (taskBase (safeName (usedName p)) fv.1 id).isPrefixOf e.name) ≠ [] := by
    intro p hps fv hfv id hid
    obtain ⟨p2, _, hm2⟩ := forall₂_mem_left hrel1 hps
    obtain ⟨fv2, hone⟩ := forall₂_mem_left hm2 hfv
    have h2 := hone.2
    rw [fieldDone, hid] at h2
    exact h2.1
  obtain ⟨g1, g2, g3, g4, g5⟩ := c1_projects_hit oracle ps hfo
    (initialRunState (processProjects oracle ps (initialRunState [])).2.dir) hp1 hsat
  refine ⟨?_, g1, g2, g3, g4⟩
  calc (runPipeline oracle ps (runPipeline oracle ps []).2.dir).1
      = syncFilenames
          (processProjects oracle ps
            (initialRunState (processProjects oracle ps (initialRunState [])).2.dir)).2.dir
          (processProjects oracle ps
            (initialRunState (processProjects oracle ps (initialRunState [])).2.dir)).1 := rfl
    _ = syncFilenames
          (initialRunState (processProjects oracle ps (initialRunState [])).2.dir).dir
          (processProjects oracle ps
            (initialRunState (processProjects oracle ps (initialRunState [])).2.dir)).1 := by
          rw [g1]
    _ = canonProjects
          (initialRunState (processProjects oracle ps (initialRunState [])).2.dir).dir ps := g5
    _ = (runPipeline oracle ps []).1 := hout1.symm

/-- Witness for C1: the one-record, one-field input against the
always-succeeding oracle. -/
theorem c1_second_run_idempotent_witness :
    oracleOk okOracle ∧ allSucc okOracle ∧ fieldsOk [sampleProject1] ∧
    ((runPipeline okOracle [sampleProject1]
        (runPipeline okOracle [sampleProject1] []).2.dir).1 =
      (runPipeline okOracle [sampleProject1] []).1 ∧
    (runPipeline okOracle [sampleProject1]
        (runPipeline okOracle [sampleProject1] []).2.dir).2.dir =
      (runPipeline okOracle [sampleProject1] []).2.dir ∧
    (runPipeline okOracle [sampleProject1]
        (runPipeline okOracle [sampleProject1] []).2.dir).2.fetchLog = [] ∧
    (runPipeline okOracle [sampleProject1]
        (runPipeline okOracle [sampleProject1] []).2.dir).2.downloadCount = 0 ∧
    (runPipeline okOracle [sampleProject1]
        (runPipeline okOracle [sampleProject1] []).2.dir).2.errorCount = 0) := by
  have ho : oracleOk okOracle := by
    intro id ext sz h
    rw [okOracle] at h
    cases h
    constructor
    · unfold goodExtP
      decide
    · decide
  have hs : allSucc okOracle := fun id => ⟨".png".data, 1, rfl⟩
  have hfo : fieldsOk [sampleProject1] := by
    unfold fieldsOk fieldNameOk
    decide
  exact ⟨ho, hs, hfo, c1_second_run_idempotent okOracle [sampleProject1] ho hs hfo⟩

/-! ### The no-dangling-temporary argument for mixed-outcome runs -/

/-- A clean renamed artifact on disk survives one download call: the
only name removed is the caller's temporary name. -/
theorem artifact_keeps_download (oracle : Oracle) (fileId filename url : List Char)
    (hfn : ∃ b2, filename = b2 ++ tmpLit ∧ ∀ c ∈ b2, c ≠ '.')
    (st : RunState) (b ext : List Char) (hb : ∀ c ∈ b, c ≠ '.')
    (hext : goodExtP ext) (h : ∃ e ∈ st.dir, e.name = b ++ ext) :
    ∃ e ∈ (mediaFieldDownload oracle fileId filename url st).2.dir, e.name = b ++ ext := by
  obtain ⟨b2, hfn2, hb2⟩ := hfn
  obtain ⟨e, he, hen⟩ := h
  have hne : e.name ≠ filename := by
    rw [hen, hfn2]
    exact success_name_ne_tmpname hb hext hb2
  rw [mediaFieldDownload]
  cases oracle fileId with
  | fsucc ext2 sz =>
    dsimp only
    exact setEntry_keeps_name ⟨e, removeEntry_keeps he hne, hen⟩
  | ffail lv =>
    dsimp only
    by_cases hlv : lv = true
    · rw [if_pos hlv]
      exact setEntry_keeps_name ⟨e, he, hen⟩
    · rw [if_neg hlv]
      exact ⟨e, removeEntry_keeps he hne, hen⟩

/-- A clean renamed artifact on disk survives one field step. -/
theorem artifact_keeps_step (oracle : Oracle) (pn f v : List Char) (hf : fieldNameOk f)
    (st : RunState) (b ext : List Char) (hb : ∀ c ∈ b, c ≠ '.')
    (hext : goodExtP ext) (h : ∃ e ∈ st.dir, e.name = b ++ ext) :
    ∃ e ∈ (mediaFieldStep oracle pn f v st).2.dir, e.name = b ++ ext := by
  rw [mediaFieldStep]
  by_cases hv : v = []
  · rw [if_pos hv]
    exact h
  rw [if_neg hv]
  cases hid : extractDriveFileIdStr v with
  | none => exact h
  | some id =>
    dsimp only
    have hfn : createSafeFilename pn f v tmpLit = taskBase (safeName pn) f id ++ tmpLit :=
      createSafeFilename_eq pn f v tmpLit id hid
    have hb2 : ∀ c ∈ taskBase (safeName pn) f id, c ≠ '.' :=
      fun c hc => (taskBase_no_dot_slash pn f id hf (extract_sound _ _ hid).2 c hc).1
    have hstep2 : ∃ e ∈ (mediaFieldStep2 oracle id (taskBase (safeName pn) f id ++ tmpLit)
        v st).2.dir, e.name = b ++ ext := by
      rw [mediaFieldStep2]
      cases lookupEntry st.dir (taskBase (safeName pn) f id ++ tmpLit) with
      | some e2 =>
        dsimp only
        by_cases hsz : e2.size > 0
        · rw [if_pos hsz]
          exact h
        · rw [if_neg hsz]
          exact artifact_keeps_download oracle id _ v ⟨_, rfl, hb2⟩ st b ext hb hext h
      | none =>
        dsimp only
        exact artifact_keeps_download oracle id _ v ⟨_, rfl, hb2⟩ st b ext hb hext h
    simp only [hfn, stripLastDot_tmp]
    cases hx : st.dir.filter (fun e =>
        (taskBase (safeName pn) f id).isPrefixOf e.name &&
          !(e.name == taskBase (safeName pn) f id ++ tmpLit)) with
    | cons e0 r =>
      dsimp only
      by_cases hsz : e0.size > 0
      · rw [if_pos hsz]
        exact h
      · rw [if_neg hsz]
        exact hstep2
    | nil =>
      dsimp only
      exact hstep2

/-- A clean renamed artifact survives processing a record's fields. -/
theorem artifact_keeps_fields (oracle : Oracle) (pn : List Char)
    (pairs : List (List Char × List Char)) (hf : ∀ fv ∈ pairs, fieldNameOk fv.1)
    (st : RunState) (b ext : List Char) (hb : ∀ c ∈ b, c ≠ '.')
    (hext : goodExtP ext) (h : ∃ e ∈ st.dir, e.name = b ++ ext) :
    ∃ e ∈ (processFields oracle pn pairs st).2.dir, e.name = b ++ ext := by
  induction pairs generalizing st with
  | nil => simpa [processFields] using h
  | cons fv rest ih =>
    obtain ⟨f, v⟩ := fv
    rw [processFields]
    dsimp only
    exact ih (fun q hq => hf q (by simp [hq])) _
      (artifact_keeps_step oracle pn f v (hf (f, v) (by simp)) st b ext hb hext h)

/-- A clean renamed artifact survives processing the record list. -/
theorem artifact_keeps_projects (oracle : Oracle) (ps2 : List Project)
    (hf : ∀ p ∈ ps2, ∀ fv ∈ p.media, fieldNameOk fv.1)
    (st : RunState) (b ext : List Char) (hb : ∀ c ∈ b, c ≠ '.')
    (hext : goodExtP ext) (h : ∃ e ∈ st.dir, e.name = b ++ ext) :
    ∃ e ∈ (processProjects oracle ps2 st).2.dir, e.name = b ++ ext := by
  induction ps2 generalizing st with
  | nil => simpa [processProjects] using h
  | cons p rest ih =>
    rw [processProjects, processProject]
    dsimp only
    exact ih (fun q hq => hf q (by simp [hq])) _
      (artifact_keeps_fields oracle (usedName p) p.media
        (fun fv hfv => hf p (by simp) fv hfv) st b ext hb hext h)

/-- `fieldDone2` transports along any directory change that keeps clean
renamed artifacts. -/
theorem fieldDone2_mono (oracle : Oracle) {d d2 : List Entry} (pn f v v2 : List Char)
    (ho : oracleOk oracle) (hf : fieldNameOk f)
    (hsub : ∀ b ext, (∀ c ∈ b, c ≠ '.') → goodExtP ext →
      (∃ e ∈ d, e.name = b ++ ext) → ∃ e ∈ d2, e.name = b ++ ext)
    (h : fieldDone2 oracle d pn f v v2) : fieldDone2 oracle d2 pn f v v2 := by
  rcases h with h | h | ⟨id, ext, sz, hid, hor, hval, hart⟩
  · exact Or.inl h
  · exact Or.inr (Or.inl h)
  · refine Or.inr (Or.inr ⟨id, ext, sz, hid, hor, hval, ?_⟩)
    refine hsub _ ext ?_ (ho id ext sz hor).1 hart
    exact fun c hc => (taskBase_no_dot_slash pn f id hf (extract_sound _ _ hid).2 c hc).1

/-- Value classification of the download branch. -/
theorem c2_download_value (oracle : Oracle) (bases : List (List Char × List Char))
    (dir0 : List Entry) (hctx : basesCtx oracle bases dir0) (pn f v id : List Char)
    (hid : extractDriveFileIdStr v = some id)
    (hmem2 : (taskBase (safeName pn) f id, id) ∈ bases) (st : RunState) :
    fieldDone2 oracle
      (mediaFieldDownload oracle id (taskBase (safeName pn) f id ++ tmpLit) v st).2.dir
      pn f v
      (mediaFieldDownload oracle id (taskBase (safeName pn) f id ++ tmpLit) v st).1 := by
  have hbp := hctx.2.2.2 _ hmem2
  have hbd : ∀ c ∈ taskBase (safeName pn) f id, c ≠ '.' := fun c hc => (hbp.1 c hc).1
  rw [mediaFieldDownload]
  cases hfetch : oracle id with
  | fsucc ext sz =>
    dsimp only
    have hren : replaceFirstSeq (taskBase (safeName pn) f id ++ tmpLit)
        (extname (taskBase (safeName pn) f id ++ tmpLit)) ext =
        taskBase (safeName pn) f id ++ ext := by
      rw [extname_base_tmp _ hbp.1 hbp.2, replaceFirst_tmp _ ext hbd]
    rw [hren]
    refine Or.inr (Or.inr ⟨id, ext, sz, hid, hfetch, rfl, ?_⟩)
    exact setEntry_has_name _ _ _
  | ffail lv =>
    dsimp only
    exact Or.inl rfl

/-- Value classification of the exact-name cache check: under the
directory invariant a positive-size temporary cannot exist, so the step
either skips on a clean hit or falls through to the download. -/
theorem c2_step2_value (oracle : Oracle) (bases : List (List Char × List Char))
    (dir0 : List Entry) (hctx : basesCtx oracle bases dir0) (hd0 : dirPure dir0)
    (pn f v id : List Char) (hid : extractDriveFileIdStr v = some id)
    (hmem2 : (taskBase (safeName pn) f id, id) ∈ bases)
    (st : RunState) (hdir : dirInv oracle bases dir0 st.dir) :
    fieldDone2 oracle
      (mediaFieldStep2 oracle id (taskBase (safeName pn) f id ++ tmpLit) v st).2.dir
      pn f v
      (mediaFieldStep2 oracle id (taskBase (safeName pn) f id ++ tmpLit) v st).1 := by
  have hbp := hctx.2.2.2 _ hmem2
  have hbd : ∀ c ∈ taskBase (safeName pn) f id, c ≠ '.' := fun c hc => (hbp.1 c hc).1
  rw [mediaFieldStep2]
  cases hl : lookupEntry st.dir (taskBase (safeName pn) f id ++ tmpLit) with
  | some e =>
    dsimp only
    by_cases hsz : e.size > 0
    · exfalso
      rw [lookupEntry] at hl
      have he : e ∈ st.dir := List.mem_of_find?_eq_some hl
      have hen : e.name = taskBase (safeName pn) f id ++ tmpLit := by
        have h2 := List.find?_some hl
        simpa using h2
      rcases hdir e he with h0 | ⟨b2, id2, ext2, sz2, hm2, hor2, hname2, _⟩ |
        ⟨b2, id2, lv2, hm2, hor2, hname2, hsz2⟩
      · obtain ⟨_, b2, ext2, hname2, hb2, _, hext2⟩ := hd0 e h0
        refine success_name_ne_tmpname (fun c hc => (hb2 c hc).1) hext2 hbd ?_
        rw [← hname2, hen]
      · have hext2 : goodExtP ext2 := (hctx.1 id2 ext2 sz2 hor2).1
        have hb2d : ∀ c ∈ b2, c ≠ '.' := fun c hc => ((hctx.2.2.2 _ hm2).1 c hc).1
        refine success_name_ne_tmpname hb2d hext2 hbd ?_
        rw [← hname2, hen]
      · rw [hsz2] at hsz
        exact absurd hsz (lt_irrefl 0)
    · rw [if_neg hsz]
      exact c2_download_value oracle bases dir0 hctx pn f v id hid hmem2 st
  | none =>
    dsimp only
    exact c2_download_value oracle bases dir0 hctx pn f v id hid hmem2 st

/-- Value classification of one field step in a mixed-outcome run. -/
theorem c2_field_value (oracle : Oracle) (bases : List (List Char × List Char))
    (dir0 : List Entry) (hctx : basesCtx oracle bases dir0) (hd0 : dirPure dir0)
    (pn f v : List Char)
    (hmem : ∀ id, extractDriveFileIdStr v = some id →
      (taskBase (safeName pn) f id, id) ∈ bases)
    (st : RunState) (hinv : c6Inv oracle bases dir0 st) :
    fieldDone2 oracle (mediaFieldStep oracle pn f v st).2.dir pn f v
      (mediaFieldStep oracle pn f v st).1 := by
  rw [mediaFieldStep]
  by_cases hv : v = []
  · rw [if_pos hv]
    exact Or.inl rfl
  rw [if_neg hv]
  cases hid : extractDriveFileIdStr v with
  | none => exact Or.inl rfl
  | some id =>
    dsimp only
    have hmem2 := hmem id hid
    have hfn : createSafeFilename pn f v tmpLit = taskBase (safeName pn) f id ++ tmpLit :=
      createSafeFilename_eq pn f v tmpLit id hid
    simp only [hfn, stripLastDot_tmp]
    obtain ⟨hnd, hdir, hslog⟩ := hinv
    have hpos := filter_members_pos oracle bases dir0 hctx st.dir hdir
      (taskBase (safeName pn) f id) id hmem2
    cases hx : st.dir.filter (fun e =>
        (taskBase (safeName pn) f id).isPrefixOf e.name &&
          !(e.name == taskBase (safeName pn) f id ++ tmpLit)) with
    | cons e0 r =>
      dsimp only
      have hsz := hpos e0 (by rw [hx]; simp)
      rw [if_pos hsz]
      have he0 : e0 ∈ st.dir := (List.mem_filter.mp (show e0 ∈ st.dir.filter _ from by
        rw [hx]; simp)).1
      rcases hdir e0 he0 with h0 | ⟨b2, id2, ext2, sz2, hm2, hor2, hname2, _⟩ |
        ⟨b2, id2, lv2, hm2, hor2, hname2, hsz2⟩
      · obtain ⟨_, b2, ext2, hname2, hb2, hbne2, hext2⟩ := hd0 e0 h0
        exact Or.inr (Or.inl ⟨b2, ext2, hb2, hbne2, hext2, by rw [hname2]⟩)
      · have hext2 : goodExtP ext2 := (hctx.1 id2 ext2 sz2 hor2).1
        have hb2p := hctx.2.2.2 _ hm2
        exact Or.inr (Or.inl ⟨b2, ext2, hb2p.1, hb2p.2, hext2, by rw [hname2]⟩)
      · rw [hsz2] at hsz
        exact absurd hsz (lt_irrefl 0)
    | nil =>
      dsimp only
      exact c2_step2_value oracle bases dir0 hctx hd0 pn f v id hid hmem2 st hdir

/-- Pointwise strengthening of a `Forall₂` using membership on the
left. -/
theorem forall₂_imp_mem {α β : Type} {R S : α → β → Prop} {l1 : List α} {l2 : List β}
    (h : List.Forall₂ R l1 l2) (himp : ∀ a ∈ l1, ∀ b, R a b → S a b) :
    List.Forall₂ S l1 l2 := by
  induction h with
  | nil => exact List.Forall₂.nil
  | @cons a b l3 l4 hR hrest ih =>
    exact List.Forall₂.cons (himp a (by simp) b hR)
      (ih (fun x hx y hy => himp x (by simp [hx]) y hy))

/-- A `Forall₂` against a mapped right list. -/
theorem forall₂_map_right {α β γ : Type} {R : α → γ → Prop} {g : β → γ}
    {l1 : List α} {l2 : List β}
    (h : List.Forall₂ (fun a b => R a (g b)) l1 l2) : List.Forall₂ R l1 (l2.map g) := by
  induction h with
  | nil => exact List.Forall₂.nil
  | cons hR _ ih => exact List.Forall₂.cons hR ih

/-- Processing a record's fields in a mixed-outcome run: every output
field is classified against the fold's final directory. -/
theorem c2_fields_rel (oracle : Oracle) (bases : List (List Char × List Char))
    (dir0 : List Entry) (hctx : basesCtx oracle bases dir0) (hd0 : dirPure dir0)
    (pn : List Char) (pairs : List (List Char × List Char))
    (hf : ∀ fv ∈ pairs, fieldNameOk fv.1)
    (hmem : ∀ fv ∈ pairs, ∀ id, extractDriveFileIdStr fv.2 = some id →
      (taskBase (safeName pn) fv.1 id, id) ∈ bases)
    (st : RunState) (hinv : c6Inv oracle bases dir0 st) :
    List.Forall₂ (fun fv fv2 => fv2.1 = fv.1 ∧
      fieldDone2 oracle (processFields oracle pn pairs st).2.dir pn fv.1 fv.2 fv2.2)
      pairs (processFields oracle pn pairs st).1 := by
  induction pairs generalizing st with
  | nil => simp [processFields]
  | cons fv rest ih =>
    obtain ⟨f, v⟩ := fv
    rw [processFields]
    dsimp only
    have hstep := c2_field_value oracle bases dir0 hctx hd0 pn f v
      (fun id hid => hmem (f, v) (by simp) id hid) st hinv
    have hinv2 := c6_field_step oracle bases dir0 hctx pn f v
      (fun id hid => hmem (f, v) (by simp) id hid) st hinv
    have htail := ih (fun q hq => hf q (by simp [hq]))
      (fun q hq id hid => hmem q (by simp [hq]) id hid) _ hinv2
    refine List.Forall₂.cons ⟨rfl, ?_⟩ htail
    refine fieldDone2_mono oracle pn f v _ hctx.1 (hf (f, v) (by simp)) ?_ hstep
    intro b ext hb hext hart
    exact artifact_keeps_fields oracle pn rest (fun q hq => hf q (by simp [hq]))
      _ b ext hb hext hart

/-- Processing the record list in a mixed-outcome run: every output
field of every record is classified against the run's final
directory. -/
theorem c2_projects_rel (oracle : Oracle) (bases : List (List Char × List Char))
    (dir0 : List Entry) (hctx : basesCtx oracle bases dir0) (hd0 : dirPure dir0)
    (ps2 : List Project) (hf : ∀ p ∈ ps2, ∀ fv ∈ p.media, fieldNameOk fv.1)
    (hmem : ∀ p ∈ ps2, ∀ fv ∈ p.media, ∀ id, extractDriveFileIdStr fv.2 = some id →
      (taskBase (safeName (usedName p)) fv.1 id, id) ∈ bases)
    (st : RunState) (hinv : c6Inv oracle bases dir0 st) :
    List.Forall₂ (fun p p2 => p2.projectName = p.projectName ∧
      List.Forall₂ (fun fv fv2 => fv2.1 = fv.1 ∧
        fieldDone2 oracle (processProjects oracle ps2 st).2.dir (usedName p) fv.1 fv.2 fv2.2)
        p.media p2.media)
      ps2 (processProjects oracle ps2 st).1 := by
  induction ps2 generalizing st with
  | nil => simp [processProjects]
  | cons p rest ih =>
    rw [processProjects, processProject]
    dsimp only
    have hfields := c2_fields_rel oracle bases dir0 hctx hd0 (usedName p) p.media
      (fun fv hfv => hf p (by simp) fv hfv)
      (fun fv hfv id hid => hmem p (by simp) fv hfv id hid) st hinv
    have hinv2 := c6_fields oracle bases dir0 hctx (usedName p) p.media
      (fun fv hfv id hid => hmem p (by simp) fv hfv id hid) st hinv
    have htail := ih (fun q hq fv hfv => hf q (by simp [hq]) fv hfv)
      (fun q hq fv hfv id hid => hmem q (by simp [hq]) fv hfv id hid) _ hinv2
    refine List.Forall₂.cons ⟨rfl, ?_⟩ htail
    refine forall₂_imp_mem hfields ?_
    intro fv hfv fv2 hone
    refine ⟨hone.1, ?_⟩
    refine fieldDone2_mono oracle (usedName p) fv.1 fv.2 fv2.2 hctx.1
      (hf p (by simp) fv hfv) ?_ hone.2
    intro b ext hb hext hart
    exact artifact_keeps_projects oracle rest (fun q hq fv3 hfv3 => hf q (by simp [hq]) fv3 hfv3)
      _ b ext hb hext hart

/-- Reconciliation of one classified value against a final directory in
which every entry is either a clean named file or the zero-byte
temporary of a failed key: the result never carries `.tmp`, and is the
original value or a clean local path. -/
theorem c2_sync (oracle : Oracle) (bases : List (List Char × List Char)) (d : List Entry)
    (hPF : ∀ t1 ∈ bases, ∀ t2 ∈ bases, t1.1 <+: t2.1 → t1 = t2)
    (hmix : ∀ e ∈ d,
      (∃ b ext, e.name = b ++ ext ∧ (∀ c ∈ b, c ≠ '.' ∧ c ≠ '/') ∧ b ≠ [] ∧ goodExtP ext) ∨
      (∃ b id lv, (b, id) ∈ bases ∧ oracle id = .ffail lv ∧ e.name = b ++ tmpLit))
    (pn f v v2 : List Char) (hf : fieldNameOk f)
    (hmem : ∀ id, extractDriveFileIdStr v = some id →
      (taskBase (safeName pn) f id, id) ∈ bases)
    (hv : seqInfix tmpLit v = false)
    (h : fieldDone2 oracle d pn f v v2) :
    seqInfix tmpLit (syncValue d v2) = false ∧
    (syncValue d v2 = v ∨ ∃ b ext, (∀ c ∈ b, c ≠ '.' ∧ c ≠ '/') ∧ b ≠ [] ∧ goodExtP ext ∧
      syncValue d v2 = assetsPrefix ++ (b ++ ext)) := by
  rcases h with h | ⟨b, ext, hb, hbne, hext, h⟩ | ⟨id, ext, sz, hid, hor, hval, hart⟩
  · subst h
    rw [syncValue, if_neg (by simp [hv])]
    exact ⟨hv, Or.inl rfl⟩
  · subst h
    rw [syncValue,
      if_neg (by simp [tmp_not_infix_value b ext (fun c hc => (hb c hc).1) hext])]
    exact ⟨tmp_not_infix_value b ext (fun c hc => (hb c hc).1) hext,
      Or.inr ⟨b, ext, hb, hbne, hext, rfl⟩⟩
  · subst hval
    have hmemb := hmem id hid
    have hbase := taskBase_no_dot_slash pn f id hf (extract_sound _ _ hid).2
    rw [syncValue]
    rw [if_pos (show seqInfix tmpLit
        (assetsPrefix ++ (taskBase (safeName pn) f id ++ tmpLit)) = true from by
      rw [seqInfix_iff]
      exact ⟨assetsPrefix ++ taskBase (safeName pn) f id, [], by simp⟩)]
    rw [basenameTmp_eq _ (fun c hc => (hbase c hc).2)]
    cases hfind : d.find? (fun e => (taskBase (safeName pn) f id).isPrefixOf e.name) with
    | none =>
      exfalso
      obtain ⟨e, he, hen⟩ := hart
      have := List.find?_eq_none.mp hfind e he
      refine this ?_
      rw [List.isPrefixOf_iff_prefix, hen]
      exact List.prefix_append _ _
    | some m =>
      dsimp only
      have hmmem : m ∈ d := List.mem_of_find?_eq_some hfind
      have hpred : (taskBase (safeName pn) f id) <+: m.name := by
        have h2 := List.find?_some hfind
        rwa [List.isPrefixOf_iff_prefix] at h2
      rcases hmix m hmmem with ⟨b2, ext2, hname2, hb2, hbne2, hext2⟩ |
        ⟨b2, id2, lv2, hm2, hor2, hname2⟩
      · refine ⟨?_, Or.inr ⟨b2, ext2, hb2, hbne2, hext2, by rw [hname2]⟩⟩
        rw [hname2]
        exact tmp_not_infix_value b2 ext2 (fun c hc => (hb2 c hc).1) hext2
      · exfalso
        rw [hname2] at hpred
        have hble : taskBase (safeName pn) f id <+: b2 :=
          prefix_left_of_dotfree (fun c hc => (hbase c hc).1) (by decide) hpred
        have heq := hPF _ hmemb (b2, id2) hm2 hble
        injection heq with h1 h2
        rw [← h2] at hor2
        rw [hor] at hor2
        exact FetchOutcome.noConfusion hor2

/-- C2 (amended): starting from a clean assets directory (every
pre-existing entry a non-empty file whose name is a dot-and-slash-free
base plus a real extension), with sane field names, prefix-free cache
keys, successful fetches reporting real extensions and positive sizes,
and no input value containing the placeholder `.tmp`, every media field
of the persisted output is free of the temporary placeholder: it is
either the input value unchanged (in particular the original URL when
the fetch for it failed) or a fully resolved local path
`/assets/projects/<base><ext>` with a real extension. -/
theorem c2_no_dangling_tmp (oracle : Oracle) (ps : List Project) (dir0 : List Entry)
    (ho : oracleOk oracle) (hd0 : dirPure dir0) (hfo : fieldsOk ps) (hbo : basesOk ps)
    (hnt : ∀ p ∈ ps, ∀ fv ∈ p.media, seqInfix tmpLit fv.2 = false) :
    List.Forall₂ (fun p p2 => p2.projectName = p.projectName ∧
      List.Forall₂ (fun fv fv2 => fv2.1 = fv.1 ∧
        seqInfix tmpLit fv2.2 = false ∧
        (fv2.2 = fv.2 ∨ ∃ b ext, (∀ c ∈ b, c ≠ '.' ∧ c ≠ '/') ∧ b ≠ [] ∧ goodExtP ext ∧
          fv2.2 = assetsPrefix ++ (b ++ ext)))
        p.media p2.media)
      ps (runPipeline oracle ps dir0).1 := by
  have hctx : basesCtx oracle (allTasks ps) dir0 := by
    refine ⟨ho, fun e he => (hd0 e he).1, hbo, ?_⟩
    intro t ht
    obtain ⟨p, hp, fv, hfv, id, hid, hteq⟩ := allTasks_src ps t ht
    subst hteq
    dsimp only
    exact ⟨taskBase_no_dot_slash _ _ _ (hfo p hp fv hfv) (extract_sound _ _ hid).2,
      taskBase_ne_nil _ _ _⟩
  have hinv0 : c6Inv oracle (allTasks ps) dir0 (initialRunState dir0) := by
    refine ⟨List.nodup_nil, fun e he => Or.inl he, ?_⟩
    intro b hb
    simp [initialRunState] at hb
  have hmem : ∀ p ∈ ps, ∀ fv ∈ p.media, ∀ id, extractDriveFileIdStr fv.2 = some id →
      (taskBase (safeName (usedName p)) fv.1 id, id) ∈ allTasks ps :=
    fun p hp fv hfv id hid => task_mem_allTasks ps p hp fv hfv id hid
  have hrel := c2_projects_rel oracle (allTasks ps) dir0 hctx hd0 ps hfo hmem
    (initialRunState dir0) hinv0
  have hinvF := c6_projects oracle (allTasks ps) dir0 hctx ps hmem
    (initialRunState dir0) hinv0
  have hmix : ∀ e ∈ (processProjects oracle ps (initialRunState dir0)).2.dir,
      (∃ b ext, e.name = b ++ ext ∧ (∀ c ∈ b, c ≠ '.' ∧ c ≠ '/') ∧ b ≠ [] ∧ goodExtP ext) ∨
      (∃ b id lv, (b, id) ∈ allTasks ps ∧ oracle id = .ffail lv ∧ e.name = b ++ tmpLit) := by
    intro e he
    rcases hinvF.2.1 e he with h0 | ⟨b2, id2, ext2, sz2, hm2, hor2, hname2, _⟩ |
      ⟨b2, id2, lv2, hm2, hor2, hname2, _⟩
    · obtain ⟨_, b2, ext2, hname2, hb2, hbne2, hext2⟩ := hd0 e h0
      exact Or.inl ⟨b2, ext2, hname2, hb2, hbne2, hext2⟩
    · have hb2p := hctx.2.2.2 _ hm2
      exact Or.inl ⟨b2, ext2, hname2, hb2p.1, hb2p.2, (hctx.1 id2 ext2 sz2 hor2).1⟩
    · exact Or.inr ⟨b2, id2, lv2, hm2, hor2, hname2⟩
  rw [show (runPipeline oracle ps dir0).1 = List.map
    (syncProject (processProjects oracle ps (initialRunState dir0)).2.dir)
    (processProjects oracle ps (initialRunState dir0)).1 from rfl]
  refine forall₂_map_right (forall₂_imp_mem hrel ?_)
  intro p hps p2 hpair
  refine ⟨hpair.1, ?_⟩
  rw [show (syncProject (processProjects oracle ps (initialRunState dir0)).2.dir p2).media =
    p2.media.map (fun fv =>
      (fv.1, syncValue (processProjects oracle ps (initialRunState dir0)).2.dir fv.2))
    from rfl]
  refine forall₂_map_right (forall₂_imp_mem hpair.2 ?_)
  intro fv hfv fv2 hone
  have hres := c2_sync oracle (allTasks ps)
    (processProjects oracle ps (initialRunState dir0)).2.dir hctx.2.2.1 hmix
    (usedName p) fv.1 fv.2 fv2.2 (hfo p hps fv hfv)
    (fun id hid => task_mem_allTasks ps p hps fv hfv id hid)
    (hnt p hps fv hfv) hone.2
  exact ⟨hone.1, hres.1, hres.2⟩

/-- Witness for C2: the one-record input whose only fetch fails. -/
theorem c2_no_dangling_tmp_witness :
    oracleOk failOracle ∧ dirPure [] ∧ fieldsOk [sampleProject1] ∧
    basesOk [sampleProject1] ∧
    (∀ p ∈ [sampleProject1], ∀ fv ∈ p.media, seqInfix tmpLit fv.2 = false) ∧
    List.Forall₂ (fun p p2 => p2.projectName = p.projectName ∧
      List.Forall₂ (fun fv fv2 => fv2.1 = fv.1 ∧
        seqInfix tmpLit fv2.2 = false ∧
        (fv2.2 = fv.2 ∨ ∃ b ext, (∀ c ∈ b, c ≠ '.' ∧ c ≠ '/') ∧ b ≠ [] ∧ goodExtP ext ∧
          fv2.2 = assetsPrefix ++ (b ++ ext)))
        p.media p2.media)
      [sampleProject1] (runPipeline failOracle [sampleProject1] []).1 := by
  have ho : oracleOk failOracle := by
    intro id ext sz h
    simp [failOracle] at h
  have hd0 : dirPure [] := by
    intro e he
    simp at he
  have hfo : fieldsOk [sampleProject1] := by
    unfold fieldsOk fieldNameOk
    decide
  have hbo : basesOk [sampleProject1] := by
    unfold basesOk
    decide
  have hnt : ∀ p ∈ [sampleProject1], ∀ fv ∈ p.media, seqInfix tmpLit fv.2 = false := by
    decide
  exact ⟨ho, hd0, hfo, hbo, hnt,
    c2_no_dangling_tmp failOracle [sampleProject1] [] ho hd0 hfo hbo hnt⟩

end AssetPipeline
